import Mathlib

/-!
Verification of the `genologics` XML-comparison utility
(`genologics/xml_comparison.py`) and of the EPP helper functions
(`genologics/epp.py`) against their natural-language specification.

The Python code is shallowly embedded: an `xml.etree.ElementTree` element
becomes the inductive `Elem` (tag, attributes in document order, text,
children, tail), and each method of `ComparableXml` becomes a Lean
function translated line by line from the source.  Python string
comparison (code-point lexicographic) is modelled by `pyLt`/`pyLe`, and
Python's stable built-in sort by stable insertion sort.
-/

namespace Genologics

/-- Python string `<`: lexicographic comparison of the code-point
sequences of the two strings. -/
def strLtB : List Char → List Char → Bool
  | [], [] => false
  | [], _ :: _ => true
  | _ :: _, [] => false
  | a :: as, b :: bs =>
    if a.toNat < b.toNat then true
    else if b.toNat < a.toNat then false
    else strLtB as bs

def pyLt (s t : String) : Prop := strLtB s.data t.data = true

/-- Python string `<=` (the total preorder Python's `sorted` is stable
with respect to). -/
def pyLe (s t : String) : Prop := pyLt s t ∨ s = t

instance : DecidableRel pyLt := fun s t => by unfold pyLt; infer_instance

instance : DecidableRel pyLe := fun s t => by unfold pyLe; infer_instance

theorem char_eq_of_toNat_eq {a b : Char} (h : a.toNat = b.toNat) : a = b := by
  apply Char.ext
  exact UInt32.ext h

theorem strLtB_cons (a b : Char) (as bs : List Char) :
    strLtB (a :: as) (b :: bs) =
      if a.toNat < b.toNat then true
      else if b.toNat < a.toNat then false
      else strLtB as bs := rfl

theorem strLtB_asymm : ∀ l₁ l₂, strLtB l₁ l₂ = true → strLtB l₂ l₁ = false
  | [], [], h => by simp [strLtB] at h
  | [], _ :: _, _ => rfl
  | _ :: _, [], h => by simp [strLtB] at h
  | a :: as, b :: bs, h => by
    rw [strLtB_cons] at h
    rw [strLtB_cons]
    rcases Nat.lt_trichotomy a.toNat b.toNat with hab | hab | hab
    · rw [if_neg (by omega), if_pos hab]
    · rw [if_neg (by omega), if_neg (by omega)] at h
      rw [if_neg (by omega), if_neg (by omega)]
      exact strLtB_asymm as bs h
    · rw [if_neg (by omega), if_pos hab] at h
      cases h

theorem strLtB_trans : ∀ l₁ l₂ l₃, strLtB l₁ l₂ = true → strLtB l₂ l₃ = true →
    strLtB l₁ l₃ = true
  | [], [], _, h₁, _ => by simp [strLtB] at h₁
  | [], _ :: _, [], _, h₂ => by simp [strLtB] at h₂
  | [], _ :: _, _ :: _, _, _ => rfl
  | _ :: _, [], _, h₁, _ => by simp [strLtB] at h₁
  | _ :: _, _ :: _, [], _, h₂ => by simp [strLtB] at h₂
  | a :: as, b :: bs, c :: cs, h₁, h₂ => by
    rw [strLtB_cons] at h₁ h₂
    rw [strLtB_cons]
    rcases Nat.lt_trichotomy a.toNat b.toNat with hab | hab | hab <;>
      rcases Nat.lt_trichotomy b.toNat c.toNat with hbc | hbc | hbc
    · rw [if_pos (by omega)]
    · rw [if_pos (by omega)]
    · rw [if_neg (by omega), if_pos hbc] at h₂
      cases h₂
    · rw [if_pos (by omega)]
    · rw [if_neg (by omega), if_neg (by omega)] at h₁ h₂
      rw [if_neg (by omega), if_neg (by omega)]
      exact strLtB_trans as bs cs h₁ h₂
    · rw [if_neg (by omega), if_pos hbc] at h₂
      cases h₂
    · rw [if_neg (by omega), if_pos hab] at h₁
      cases h₁
    · rw [if_neg (by omega), if_pos hab] at h₁
      cases h₁
    · rw [if_neg (by omega), if_pos hab] at h₁
      cases h₁

theorem strLtB_connex : ∀ l₁ l₂, strLtB l₁ l₂ = false → strLtB l₂ l₁ = false →
    l₁ = l₂
  | [], [], _, _ => rfl
  | [], _ :: _, h₁, _ => by simp [strLtB] at h₁
  | _ :: _, [], _, h₂ => by simp [strLtB] at h₂
  | a :: as, b :: bs, h₁, h₂ => by
    rw [strLtB_cons] at h₁ h₂
    rcases Nat.lt_trichotomy a.toNat b.toNat with hab | hab | hab
    · rw [if_pos hab] at h₁
      cases h₁
    · rw [if_neg (by omega), if_neg (by omega)] at h₁ h₂
      rw [char_eq_of_toNat_eq hab, strLtB_connex as bs h₁ h₂]
    · rw [if_pos hab] at h₂
      cases h₂

theorem string_data_eq {s t : String} (h : s.data = t.data) : s = t := by
  cases s
  cases t
  exact congrArg String.mk h

theorem pyLt_trans {s t u : String} (h₁ : pyLt s t) (h₂ : pyLt t u) : pyLt s u :=
  strLtB_trans _ _ _ h₁ h₂

theorem pyLt_asymm {s t : String} (h : pyLt s t) : ¬ pyLt t s := by
  intro h₂
  have h₃ := strLtB_asymm _ _ h
  rw [h₂] at h₃
  cases h₃

instance : IsTrans String pyLe where
  trans s t u h₁ h₂ := by
    rcases h₁ with h₁ | rfl
    · rcases h₂ with h₂ | rfl
      · exact Or.inl (pyLt_trans h₁ h₂)
      · exact Or.inl h₁
    · exact h₂

instance : IsTotal String pyLe where
  total s t := by
    cases h₁ : strLtB s.data t.data
    · cases h₂ : strLtB t.data s.data
      · exact Or.inl (Or.inr (string_data_eq (strLtB_connex _ _ h₁ h₂)))
      · exact Or.inr (Or.inl h₂)
    · exact Or.inl (Or.inl h₁)

instance : IsAntisymm String pyLe where
  antisymm s t h₁ h₂ := by
    rcases h₁ with h₁ | rfl
    · rcases h₂ with h₂ | rfl
      · exact absurd h₂ (pyLt_asymm h₁)
      · rfl
    · rfl

/-- An XML element as produced by `xml.etree.ElementTree.fromstring`:
tag name, attribute list in document order, text (Python `None` modelled
as `""`), list of child elements, and tail text (text that follows the
element's end tag inside its parent).  All strings are assumed ASCII. -/
inductive Elem : Type where
  | mk (tag : String) (attrib : List (String × String)) (text : String)
       (children : List Elem) (tail : String) : Elem

def Elem.tag : Elem → String
  | .mk t _ _ _ _ => t

def Elem.attrib : Elem → List (String × String)
  | .mk _ a _ _ _ => a

def Elem.text : Elem → String
  | .mk _ _ x _ _ => x

def Elem.children : Elem → List Elem
  | .mk _ _ _ cs _ => cs

def Elem.tail : Elem → String
  | .mk _ _ _ _ tl => tl

/-- Ordering used by Python's `sorted(el.attrib.items())`: lexicographic
order on `(name, value)` pairs under Python string comparison. -/
def attrLE (p q : String × String) : Prop :=
  pyLt p.1 q.1 ∨ (p.1 = q.1 ∧ pyLe p.2 q.2)

instance : DecidableRel attrLE := fun p q => by
  unfold attrLE; infer_instance

instance : IsTotal (String × String) attrLE where
  total p q := by
    cases h₁ : strLtB p.1.data q.1.data
    · cases h₂ : strLtB q.1.data p.1.data
      · have e : p.1 = q.1 := string_data_eq (strLtB_connex _ _ h₁ h₂)
        rcases IsTotal.total (r := pyLe) p.2 q.2 with h | h
        · exact Or.inl (Or.inr ⟨e, h⟩)
        · exact Or.inr (Or.inr ⟨e.symm, h⟩)
      · exact Or.inr (Or.inl h₂)
    · exact Or.inl (Or.inl h₁)

instance : IsTrans (String × String) attrLE where
  trans p q r hpq hqr := by
    rcases hpq with h₁ | ⟨e₁, v₁⟩
    · rcases hqr with h₂ | ⟨e₂, v₂⟩
      · exact Or.inl (pyLt_trans h₁ h₂)
      · exact Or.inl (e₂ ▸ h₁)
    · rcases hqr with h₂ | ⟨e₂, v₂⟩
      · exact Or.inl (e₁ ▸ h₂)
      · exact Or.inr ⟨e₁.trans e₂, Trans.trans v₁ v₂⟩

/-- The ordering the spec describes for the key: attributes taken "sorted
by attribute name" (ascending name only).  Stated separately from `attrLE`
(which the code uses) so the two can be compared. -/
def nameLE (p q : String × String) : Prop :=
  pyLe p.1 q.1

instance : DecidableRel nameLE := fun p q => by
  unfold nameLE; infer_instance

instance : IsTotal (String × String) nameLE where
  total p q := IsTotal.total (r := pyLe) p.1 q.1

instance : IsTrans (String × String) nameLE where
  trans _ _ _ h₁ h₂ := Trans.trans (r := pyLe) h₁ h₂

/-- `ComparableXml._element_sort_key`: the tag name followed by the
attribute values taken in sorted order of the `(name, value)` pairs
(`key = el.tag`; `for attr, value in sorted(el.attrib.items()): key += value`). -/
def elementSortKey (e : Elem) : String :=
  e.tag ++ String.join (((e.attrib).insertionSort attrLE).map Prod.snd)

/-- The comparison Python's `sorted(element, key=self._element_sort_key)`
sorts by. -/
def keyLE (e₁ e₂ : Elem) : Prop :=
  pyLe (elementSortKey e₁) (elementSortKey e₂)

instance : DecidableRel keyLE := fun _ _ => by
  unfold keyLE; infer_instance

instance : IsTotal Elem keyLE where
  total _ _ := IsTotal.total (r := pyLe) _ _

instance : IsTrans Elem keyLE where
  trans _ _ _ h₁ h₂ := Trans.trans (r := pyLe) h₁ h₂

/-- Python's built-in `sorted` (a stable sort by the given key),
modelled by stable insertion sort. -/
def pySorted (cs : List Elem) : List Elem :=
  cs.insertionSort keyLE

mutual

/-- `ComparableXml._set_sorted_rec`: recursively sort every element's
children first, then replace the element's child list by the stable sort
of it under `_element_sort_key`. -/
def setSortedRec : Elem → Elem
  | .mk t a x cs tl => .mk t a x (pySorted (setSortedRecList cs)) tl

def setSortedRecList : List Elem → List Elem
  | [] => []
  | c :: cs => setSortedRec c :: setSortedRecList cs

end

/-- `ComparableXml._exclude_tag`: `root.findall(exclude)` with a plain tag
name matches exactly the direct children of `root` whose tag equals
`exclude`, and each is removed; the net effect is filtering the root's
child list. -/
def excludeTagFn (e : Elem) (exclude : String) : Elem :=
  match e with
  | .mk t a x cs tl => .mk t a x (cs.filter (fun c => c.tag ≠ exclude)) tl

/-- The root stored by `ComparableXml.__init__` once parsing is done:
`_set_sorted_rec(root)` followed by `_exclude_tag(root, exclude_tag)` when
`exclude_tag` is truthy (`if exclude_tag:` — `None` and `""` are falsy). -/
def comparableRoot (d : Elem) (excludeTag : Option String) : Elem :=
  match excludeTag with
  | none => setSortedRec d
  | some t => if t = "" then setSortedRec d else excludeTagFn (setSortedRec d) t

/-- `xml.etree.ElementTree._escape_cdata`, as a map on single characters
(the sequential `str.replace` calls, `&` first, are equivalent to this
character-wise map). -/
def escapeCdataChar (c : Char) : List Char :=
  if c = '&' then ['&', 'a', 'm', 'p', ';']
  else if c = '<' then ['&', 'l', 't', ';']
  else if c = '>' then ['&', 'g', 't', ';']
  else [c]

def escapeCdataL : List Char → List Char
  | [] => []
  | c :: cs => escapeCdataChar c ++ escapeCdataL cs

def escapeCdata (s : String) : String := ⟨escapeCdataL s.data⟩

/-- `xml.etree.ElementTree._escape_attrib`, as a map on single characters:
`&`, `<`, `>`, `"` become entities and tab/newline/carriage-return become
character references; every other character (including the space) is kept. -/
def escapeAttribChar (c : Char) : List Char :=
  if c = '&' then ['&', 'a', 'm', 'p', ';']
  else if c = '<' then ['&', 'l', 't', ';']
  else if c = '>' then ['&', 'g', 't', ';']
  else if c = '\"' then ['&', 'q', 'u', 'o', 't', ';']
  else if c = '\r' then ['&', '#', '1', '3', ';']
  else if c = '\n' then ['&', '#', '1', '0', ';']
  else if c = '\t' then ['&', '#', '0', '9', ';']
  else [c]

def escapeAttribL : List Char → List Char
  | [] => []
  | c :: cs => escapeAttribChar c ++ escapeAttribL cs

def escapeAttrib (s : String) : String := ⟨escapeAttribL s.data⟩

/-- The attribute part of a start tag: ET writes
`" %s=\"%s\"" % (k, _escape_attrib(v))` for each attribute in document
order. -/
def attribsString : List (String × String) → String
  | [] => ""
  | (k, v) :: rest => " " ++ k ++ "=\"" ++ escapeAttrib v ++ "\"" ++ attribsString rest

mutual

/-- `ElementTree.write` / `ET.tostring` body for one element (ASCII
documents, default `short_empty_elements=True`): start tag with
attributes, then either `" />"` (no text, no children) or
`">" text children "</tag>"`, then the element's tail text. -/
def serializeElem : Elem → String
  | .mk t a x cs tl =>
    "<" ++ t ++ attribsString a ++
      ((if (x == "") && cs.isEmpty then " />"
        else ">" ++ escapeCdata x ++ serializeList cs ++ "</" ++ t ++ ">")
       ++ escapeCdata tl)

def serializeList : List Elem → String
  | [] => ""
  | c :: cs => serializeElem c ++ serializeList cs

end

/-- Everything of an element's serialization that follows its attribute
list. -/
def serializeRest (t x : String) (cs : List Elem) (tl : String) : String :=
  (if (x == "") && cs.isEmpty then " />"
   else ">" ++ escapeCdata x ++ serializeList cs ++ "</" ++ t ++ ">") ++ escapeCdata tl

/-- The characters matched by the regex `\s` (ASCII range): the six
whitespace characters removed by `re.sub(r'\s+', '', …)`. -/
def pySpaceB (c : Char) : Bool :=
  c == ' ' || c == '\t' || c == '\n' || c == '\r' || c == '\x0b' || c == '\x0c'

/-- `re.sub(r'\s+', '', s)`: remove every whitespace character. -/
def stripWs (s : String) : String := ⟨s.data.filter (fun c => !pySpaceB c)⟩

/-- The characters of an attribute value that survive whitespace
stripping of its serialization: everything except the whitespace
characters that are not escaped (tab, newline and carriage return are
escaped to character references, which whitespace stripping keeps). -/
def keepB (c : Char) : Bool :=
  !pySpaceB c || (c == '\t' || c == '\n' || c == '\r')

/-- Reads back one attribute-escaped character from the front of a
character list (the left inverse used to show `escapeAttribL` is
injective). -/
def decodeEsc (l : List Char) : Option (Char × List Char) :=
  match l with
  | [] => none
  | c :: r =>
    if c = '&' then
      if r.take 4 = ['a', 'm', 'p', ';'] then some ('&', r.drop 4)
      else if r.take 3 = ['l', 't', ';'] then some ('<', r.drop 3)
      else if r.take 3 = ['g', 't', ';'] then some ('>', r.drop 3)
      else if r.take 5 = ['q', 'u', 'o', 't', ';'] then some ('\"', r.drop 5)
      else if r.take 4 = ['#', '1', '3', ';'] then some ('\r', r.drop 4)
      else if r.take 4 = ['#', '1', '0', ';'] then some ('\n', r.drop 4)
      else if r.take 4 = ['#', '0', '9', ';'] then some ('\t', r.drop 4)
      else none
    else some (c, r)

/-- The canonical form of a document: the whitespace-free serialization
of the normalized (and, when requested, pruned) tree.  This is the string
`ComparableXml.tostring` is intended to produce; see `tostringMethod` for
the `bytes`/`str` mismatch in the method as written. -/
def canonicalString (d : Elem) (excludeTag : Option String) : String :=
  stripWs (serializeElem (comparableRoot d excludeTag))

/-- Python exceptions that appear in this code base. -/
inductive PyExn : Type where
  | typeError
  | httpError
  | parseError
  | otherExn (name : String)
deriving DecidableEq

/-- A Python object that is either a `str` or a `bytes`. -/
inductive PyData : Type where
  | pyStr (s : String)
  | pyBytes (b : List Nat)

/-- `ET.tostring(root)` with no `encoding` argument returns a `bytes`
object (the us-ascii encoding of the serialization). -/
def etTostring (e : Elem) : PyData :=
  .pyBytes ((serializeElem e).data.map Char.toNat)

/-- `re.sub(r'\s+', '', target)`: the pattern is a `str` pattern, so a
`bytes` target raises `TypeError: cannot use a string pattern on a
bytes-like object`. -/
def reSubWsEmpty : PyData → Except PyExn String
  | .pyStr s => .ok (stripWs s)
  | .pyBytes _ => .error .typeError

/-- `ComparableXml.tostring` exactly as written:
`re.sub(r'\s+', '', ET.tostring(self.root))`. -/
def tostringMethod (root : Elem) : Except PyExn String :=
  reSubWsEmpty (etTostring root)

mutual

/-- Whether some element of the tree (the root included) has the given
tag. -/
def hasTag (t : String) : Elem → Bool
  | .mk tg _ _ cs _ => (tg == t) || hasTagList t cs

def hasTagList (t : String) : List Elem → Bool
  | [] => false
  | c :: cs => hasTag t c || hasTagList t cs

end

mutual

/-- Every sibling group of the tree has pairwise distinct
`_element_sort_key` values. -/
def distinctKeys : Elem → Bool
  | .mk _ _ _ cs _ => decide ((cs.map elementSortKey).Nodup) && distinctKeysList cs

def distinctKeysList : List Elem → Bool
  | [] => true
  | c :: cs => distinctKeys c && distinctKeysList cs

end

mutual

/-- `SibPerm d₁ d₂`: the two documents differ only in the relative order
of sibling elements — at every node the tag, attributes, text and tail
agree, and the child lists are permutations of each other up to
recursively reordered children. -/
inductive SibPerm : Elem → Elem → Prop where
  | mk {t : String} {a : List (String × String)} {x : String}
       {cs₁ cs₂ cs₃ : List Elem} {tl : String} :
      SibPermChildren cs₁ cs₂ → cs₂.Perm cs₃ →
      SibPerm (.mk t a x cs₁ tl) (.mk t a x cs₃ tl)

/-- Pointwise `SibPerm` between two child lists of equal length. -/
inductive SibPermChildren : List Elem → List Elem → Prop where
  | nil : SibPermChildren [] []
  | cons {e₁ e₂ : Elem} {l₁ l₂ : List Elem} :
      SibPerm e₁ e₂ → SibPermChildren l₁ l₂ → SibPermChildren (e₁ :: l₁) (e₂ :: l₂)

end

/-- A character allowed in an XML tag or attribute name: well-formed XML
names contain none of the markup characters nor whitespace. -/
def xmlNameChar (c : Char) : Bool :=
  !((c == '<') || (c == '>') || (c == '\"') || (c == '&') || (c == '/')
    || (c == '=') || pySpaceB c)

/-- A well-formed XML name: nonempty and made of name characters. -/
def wfName (s : String) : Bool :=
  (!(s == "")) && s.data.all xmlNameChar

mutual

/-- Well-formedness of a parsed document as `ET.fromstring` guarantees
it: every tag and every attribute name in the tree is a well-formed XML
name (text, tails and attribute values are arbitrary). -/
def wfElem : Elem → Bool
  | .mk t a _ cs _ => wfName t && a.all (fun p => wfName p.1) && wfList cs

def wfList : List Elem → Bool
  | [] => true
  | c :: cs => wfElem c && wfList cs

end

/-- `AttrDiff k v₁ v₂ d₁ d₂`: the two documents are identical except
that one element (at any depth) carries value `v₁` respectively `v₂` for
its attribute `k`. -/
inductive AttrDiff (k v₁ v₂ : String) : Elem → Elem → Prop where
  | here (t : String) (as₁ as₂ : List (String × String)) (x : String)
      (cs : List Elem) (tl : String) :
      AttrDiff k v₁ v₂ (.mk t (as₁ ++ (k, v₁) :: as₂) x cs tl)
        (.mk t (as₁ ++ (k, v₂) :: as₂) x cs tl)
  | child (t : String) (a : List (String × String)) (x : String)
      (cs₁ cs₂ : List Elem) (tl : String) {e₁ e₂ : Elem} :
      AttrDiff k v₁ v₂ e₁ e₂ →
      AttrDiff k v₁ v₂ (.mk t a x (cs₁ ++ e₁ :: cs₂) tl)
        (.mk t a x (cs₁ ++ e₂ :: cs₂) tl)

/-- An element's fragment in a canonical form: the whitespace-stripped
serialization (markup, then the stripped escaped tail), as a character
list. -/
def fragD (e : Elem) : List Char :=
  (stripWs (serializeElem e)).data

/-- State of the markup scanner: in character data, right after a `<`,
inside a start tag (tracking a just-seen `/` and whether inside a quoted
attribute value), or inside an end tag. -/
inductive ScanMode : Type where
  | text
  | afterLt
  | stag (sawSlash : Bool) (inQuote : Bool)
  | etag

/-- One-pass scanner over a whitespace-stripped serialization: starting
at the `<` of an element's start tag with `depth` enclosing open
elements, it consumes exactly that element's markup; at depth 0 it
returns what follows the markup.  Escaping guarantees that `<`, `>` and
`"` inside values, text and tails never reach the scanner raw, so the
scanner needs no knowledge of names. -/
def scanM : Nat → ScanMode → List Char → Option (List Char)
  | _, _, [] => none
  | d, .text, c :: r =>
    if c = '<' then scanM d .afterLt r else scanM d .text r
  | d, .afterLt, c :: r =>
    if c = '/' then scanM d .etag r
    else if c = '>' then scanM (d + 1) .text r
    else if c = '\"' then scanM d (.stag false true) r
    else scanM d (.stag false false) r
  | d, .stag sawSlash inQuote, c :: r =>
    if inQuote then
      if c = '\"' then scanM d (.stag false false) r else scanM d (.stag false true) r
    else if c = '\"' then scanM d (.stag false true) r
    else if c = '>' then
      if sawSlash then
        match d with
        | 0 => some r
        | _ + 1 => scanM d .text r
      else scanM (d + 1) .text r
    else if c = '/' then scanM d (.stag true false) r
    else scanM d (.stag false false) r
  | d, .etag, c :: r =>
    if c = '>' then
      match d with
      | 0 => none
      | 1 => some r
      | n + 2 => scanM (n + 1) .text r
    else scanM d .etag r

/-- The strings that may follow a fragment inside a serialized child
list: nothing, or the next fragment (which starts with `<`). -/
def startsLtOrNil (r : List Char) : Prop :=
  r = [] ∨ ∃ s, r = '<' :: s

/-- `ComparableXml.__init__(xml_string, exclude_tag)`.
Modelled from the spec: `xml.etree.ElementTree.fromstring` is standard
library code outside this repository; it is taken as an abstract parser
that returns the element tree of a well-formed document and fails with
`ParseError` on malformed input.  `__init__` itself has no exception
handling, so a parse failure propagates and otherwise the normalized
(and optionally pruned) root is stored. -/
def comparableXmlInit (fromstring : String → Except PyExn Elem)
    (xmlString : String) (excludeTag : Option String) : Except PyExn Elem :=
  match fromstring xmlString with
  | .error e => .error e
  | .ok root => .ok (comparableRoot root excludeTag)

/-- `genologics.epp`: `EmptyError` and `NotUniqueError` (both subclasses
of `ValueError`), with the message each is raised with. -/
inductive EppError : Type where
  | emptyError (msg : String)
  | notUniqueError (msg : String)
deriving DecidableEq

/-- `genologics.epp.unique_check(l, msg)`. -/
def unique_check {α : Type} (l : List α) (msg : String) : Except EppError Unit :=
  if l.length = 0 then .error (.emptyError ("No item found for " ++ msg))
  else if l.length ≠ 1 then .error (.notUniqueError ("Multiple items found for " ++ msg))
  else .ok ()

/-- `genologics.epp.set_field(element)`: `element.put()` inside
`try … except (TypeError, HTTPError)`; the handler only logs a warning.
The input is the outcome of `element.put()`; the result is the outcome of
`set_field` together with the list of exceptions logged as warnings. -/
def set_field (putResult : Except PyExn Unit) : Except PyExn Unit × List PyExn :=
  match putResult with
  | .ok _ => (.ok (), [])
  | .error e =>
    if e = .typeError ∨ e = .httpError then (.ok (), [e]) else (.error e, [])

/-- The fields of a `CopyField` instance that `copy_udf` reads: the source
field value and the destination UDF value captured by `__init__`, and the
destination UDF name (values are `Option` since `_get_field` can return
`None`). -/
structure CopyFieldState : Type where
  sField : Option String
  oldDestUdf : Option String
  dUdfName : String
deriving DecidableEq

/-- The observable state `copy_udf` can touch: the destination element's
UDF mapping, the changelog lines written (recorded as (old value, new
value) pairs), and how many remote updates (`put`) were attempted. -/
structure LimsWorld : Type where
  destUdfs : List (String × Option String)
  changelog : List (Option String × Option String)
  putAttempts : Nat
deriving DecidableEq

/-- Python dict assignment `d[k] = v`: replace the existing binding or
append a new one. -/
def updateUdf (m : List (String × Option String)) (k : String) (v : Option String) :
    List (String × Option String) :=
  match m with
  | [] => [(k, v)]
  | (k₀, v₀) :: rest => if k₀ = k then (k, v) :: rest else (k₀, v₀) :: updateUdf rest k v

/-- How a call to `CopyField.copy_udf` can end: a normal return,
`sys.exit(-1)` (from `_set_udf` when `put` raises `TypeError`/`HTTPError`),
or an uncaught exception. -/
inductive CopyOutcome : Type where
  | ret (b : Bool) (w : LimsWorld)
  | exit (code : Int) (w : LimsWorld)
  | raised (e : PyExn) (w : LimsWorld)
deriving DecidableEq

/-- `CopyField.copy_udf(changelog_f)`: when the captured source value and
old destination value differ, `_log_before_change` (which writes a
changelog line iff a changelog file was given), then `_set_udf` (dict
assignment plus a `put` attempt; on `TypeError`/`HTTPError` it prints and
calls `sys.exit(-1)`), then `_log_after_change` (log only) and the result
of `_set_udf` is returned; otherwise `False` is returned at once.
`putOutcome` is the outcome of `d_elt.put()`. -/
def copyUdf (st : CopyFieldState) (putOutcome : Except PyExn Unit)
    (changelogGiven : Bool) (w : LimsWorld) : CopyOutcome :=
  if st.sField ≠ st.oldDestUdf then
    let w₁ := if changelogGiven then
        { w with changelog := w.changelog ++ [(st.oldDestUdf, st.sField)] } else w
    let w₂ := { w₁ with destUdfs := updateUdf w₁.destUdfs st.dUdfName st.sField,
                        putAttempts := w₁.putAttempts + 1 }
    match putOutcome with
    | .ok _ => .ret true w₂
    | .error e => if e = .typeError ∨ e = .httpError then .exit (-1) w₂ else .raised e w₂
  else .ret false w

/-- The world a `copy_udf` outcome ends in. -/
def CopyOutcome.world : CopyOutcome → LimsWorld
  | .ret _ w => w
  | .exit _ w => w
  | .raised _ w => w

/-! ## Basic structural lemmas -/

theorem setSortedRecList_eq_map : ∀ cs : List Elem, setSortedRecList cs = cs.map setSortedRec
  | [] => rfl
  | c :: cs => by rw [setSortedRecList, setSortedRecList_eq_map cs, List.map_cons]

theorem setSortedRec_mk (t : String) (a : List (String × String)) (x : String)
    (cs : List Elem) (tl : String) :
    setSortedRec (.mk t a x cs tl) = .mk t a x (pySorted (cs.map setSortedRec)) tl := by
  rw [setSortedRec, setSortedRecList_eq_map]

theorem elementSortKey_setSortedRec (e : Elem) :
    elementSortKey (setSortedRec e) = elementSortKey e := by
  cases e with
  | mk t a x cs tl => rw [setSortedRec_mk]; rfl

theorem tag_setSortedRec (e : Elem) : (setSortedRec e).tag = e.tag := by
  cases e with
  | mk t a x cs tl => rw [setSortedRec_mk]; rfl

theorem pySorted_perm (l : List Elem) : (pySorted l).Perm l :=
  List.perm_insertionSort keyLE l

theorem pySorted_sorted (l : List Elem) : List.Sorted keyLE (pySorted l) :=
  List.sorted_insertionSort keyLE l

/-- A permutation whose images under `f` agree position by position, with
no duplicate images, is the identity permutation. -/
theorem eq_of_perm_of_map_eq {α β : Type} (f : α → β) :
    ∀ {l₁ l₂ : List α}, l₁.Perm l₂ → l₁.map f = l₂.map f → (l₁.map f).Nodup → l₁ = l₂
  | [], l₂, hp, _, _ => (hp.nil_eq).symm ▸ rfl
  | a :: t₁, [], hp, _, _ => absurd hp.length_eq (by simp)
  | a :: t₁, b :: t₂, hp, hm, hn => by
    have hfa : f a = f b := by simpa using congrArg (fun l => l.head?) hm
    have hab : a = b := by
      by_contra hne
      have ha : a ∈ b :: t₂ := hp.subset (List.mem_cons_self a t₁)
      have ha2 : a ∈ t₂ := by
        rcases List.mem_cons.mp ha with h | h
        · exact absurd h hne
        · exact h
      have : f a ∈ t₂.map f := List.mem_map_of_mem f ha2
      have hmt : t₁.map f = t₂.map f := by simpa using congrArg List.tail hm
      rw [← hmt] at this
      simp only [List.map_cons, List.nodup_cons] at hn
      exact hn.1 this
    subst hab
    have ht : t₁ = t₂ := by
      apply eq_of_perm_of_map_eq f (hp.cons_inv)
      · simpa using congrArg List.tail hm
      · simp only [List.map_cons, List.nodup_cons] at hn
        exact hn.2
    rw [ht]

/-- Two lists sorted by the (Python-compared) images under `f` that are
permutations of each other with pairwise distinct images are equal. -/
theorem sorted_perm_nodup_eq_by {α : Type} (f : α → String) {l₁ l₂ : List α}
    (hp : l₁.Perm l₂)
    (hs₁ : l₁.Pairwise (fun p q => pyLe (f p) (f q)))
    (hs₂ : l₂.Pairwise (fun p q => pyLe (f p) (f q)))
    (hn : (l₁.map f).Nodup) : l₁ = l₂ := by
  have hpm₁ : (l₁.map f).Pairwise pyLe := List.pairwise_map.mpr hs₁
  have hpm₂ : (l₂.map f).Pairwise pyLe := List.pairwise_map.mpr hs₂
  have hmap : l₁.map f = l₂.map f :=
    List.eq_of_perm_of_sorted (r := pyLe) (hp.map f) hpm₁ hpm₂
  exact eq_of_perm_of_map_eq f hp hmap hn

/-- Two sorted lists that are permutations of each other with pairwise
distinct sort keys are equal. -/
theorem sorted_perm_nodupKeys_eq {l₁ l₂ : List Elem} (hp : l₁.Perm l₂)
    (hs₁ : List.Sorted keyLE l₁) (hs₂ : List.Sorted keyLE l₂)
    (hn : (l₁.map elementSortKey).Nodup) : l₁ = l₂ :=
  sorted_perm_nodup_eq_by elementSortKey hp hs₁ hs₂ hn

/-- Stable sorting two permutations of the same elements gives the same
list when the sort keys are pairwise distinct. -/
theorem pySorted_eq_of_perm {l₁ l₂ : List Elem} (hp : l₁.Perm l₂)
    (hn : (l₁.map elementSortKey).Nodup) : pySorted l₁ = pySorted l₂ := by
  apply sorted_perm_nodupKeys_eq
  · exact (pySorted_perm l₁).trans (hp.trans (pySorted_perm l₂).symm)
  · exact pySorted_sorted l₁
  · exact pySorted_sorted l₂
  · have hkp : ((pySorted l₁).map elementSortKey).Perm (l₁.map elementSortKey) :=
      (pySorted_perm l₁).map elementSortKey
    exact hkp.nodup_iff.mpr hn

theorem any_eq_of_perm {α : Type} {l₁ l₂ : List α} (h : l₁.Perm l₂) (p : α → Bool) :
    l₁.any p = l₂.any p := by
  rw [Bool.eq_iff_iff]
  simp only [List.any_eq_true]
  constructor
  · rintro ⟨x, hx, hp⟩
    exact ⟨x, h.mem_iff.mp hx, hp⟩
  · rintro ⟨x, hx, hp⟩
    exact ⟨x, h.mem_iff.mpr hx, hp⟩

theorem hasTagList_eq_any (t : String) : ∀ cs : List Elem, hasTagList t cs = cs.any (hasTag t)
  | [] => rfl
  | c :: cs => by rw [hasTagList, hasTagList_eq_any t cs, List.any_cons]

mutual

theorem hasTag_setSortedRec (t : String) : ∀ e : Elem, hasTag t (setSortedRec e) = hasTag t e
  | .mk tg a x cs tl => by
    rw [setSortedRec_mk]
    show ((tg == t) || hasTagList t (pySorted (cs.map setSortedRec)))
        = ((tg == t) || hasTagList t cs)
    rw [hasTagList_eq_any, hasTagList_eq_any,
      any_eq_of_perm (pySorted_perm (cs.map setSortedRec)) (hasTag t),
      hasTag_map_setSorted t cs]

theorem hasTag_map_setSorted (t : String) :
    ∀ cs : List Elem, (cs.map setSortedRec).any (hasTag t) = cs.any (hasTag t)
  | [] => rfl
  | c :: cs => by
    rw [List.map_cons, List.any_cons, List.any_cons, hasTag_setSortedRec t c,
      hasTag_map_setSorted t cs]

end

/-! ## Claim C2: tag exclusion and depth -/

/-- C2 (amended): a non-empty `exclude_tag=t` removes exactly the direct
children of the root whose tag is `t` (the elements `root.findall(t)`
matches) — each surviving direct child is kept whole, so deeper elements
tagged `t` are not removed, but no direct child tagged `t` remains. -/
theorem exclude_tag_direct_children (d : Elem) (t : String) (ht : t ≠ "") :
    (comparableRoot d (some t)).children
        = (setSortedRec d).children.filter (fun c => c.tag ≠ t) ∧
    ∀ c ∈ (comparableRoot d (some t)).children, c.tag ≠ t := by
  have hch : (comparableRoot d (some t)).children
      = (setSortedRec d).children.filter (fun c => c.tag ≠ t) := by
    show (if t = "" then setSortedRec d else excludeTagFn (setSortedRec d) t).children = _
    rw [if_neg ht]
    cases setSortedRec d with
    | mk tg a x cs tl => rfl
  refine ⟨hch, ?_⟩
  intro c hc
  rw [hch] at hc
  exact of_decide_eq_true (List.mem_filter.mp hc).2

/-- Witness for C2 (amended) at a concrete document. -/
theorem exclude_tag_direct_children_witness :
    (comparableRoot
        (.mk "a" [] "" [.mk "b" [] "" [.mk "c" [] "" [] ""] "", .mk "c" [] "" [] ""] "")
        (some "c")).children
      = (setSortedRec
          (.mk "a" [] "" [.mk "b" [] "" [.mk "c" [] "" [] ""] "", .mk "c" [] "" [] ""] "")
        ).children.filter (fun c => c.tag ≠ "c") :=
  (exclude_tag_direct_children
    (.mk "a" [] "" [.mk "b" [] "" [.mk "c" [] "" [] ""] "", .mk "c" [] "" [] ""] "")
    "c" (by decide)).1

/-- Counterexample to C2 as stated: with `exclude_tag="c"` on
`<a><b><c/></b><c/></a>`, only the direct child `<c/>` of the root is
removed; the `<c/>` nested under `<b>` survives, and the canonical form
still contains an element tagged `c`. -/
theorem exclude_tag_depth_counterexample :
    hasTag "c"
      (comparableRoot
        (.mk "a" [] "" [.mk "b" [] "" [.mk "c" [] "" [] ""] "", .mk "c" [] "" [] ""] "")
        (some "c")) = true ∧
    canonicalString
        (.mk "a" [] "" [.mk "b" [] "" [.mk "c" [] "" [] ""] "", .mk "c" [] "" [] ""] "")
        (some "c")
      = "<a><b><c/></b></a>" := by decide

/-! ## Claim C5: exclusion of an absent tag is a no-op -/

/-- C5: when no element of the document has tag `t`, constructing
`ComparableXml` with `exclude_tag=t` yields the same canonical form as
constructing it with no exclusion (and, the construction being total
after parsing, no error is raised). -/
theorem exclude_missing_tag_noop (d : Elem) (t : String) (ht : hasTag t d = false) :
    canonicalString d (some t) = canonicalString d none := by
  suffices hroot : comparableRoot d (some t) = comparableRoot d none by
    unfold canonicalString
    rw [hroot]
  show (if t = "" then setSortedRec d else excludeTagFn (setSortedRec d) t) = setSortedRec d
  by_cases h0 : t = ""
  · rw [if_pos h0]
  · rw [if_neg h0]
    have hs : hasTag t (setSortedRec d) = false := by
      rw [hasTag_setSortedRec t d]
      exact ht
    cases hd : setSortedRec d with
    | mk tg a x cs tl =>
      rw [hd] at hs
      show Elem.mk tg a x (cs.filter (fun c => c.tag ≠ t)) tl = Elem.mk tg a x cs tl
      have hcs : cs.filter (fun c => c.tag ≠ t) = cs := by
        apply List.filter_eq_self.mpr
        intro c hc
        apply decide_eq_true
        have : hasTagList t cs = false := by
          have := hs
          rw [show hasTag t (Elem.mk tg a x cs tl) = ((tg == t) || hasTagList t cs) from rfl] at this
          exact (Bool.or_eq_false_iff.mp this).2
        rw [hasTagList_eq_any] at this
        have hcfalse : hasTag t c = false :=
          Bool.eq_false_iff.mpr (List.any_eq_false.mp this c hc)
        cases c with
        | mk ctg ca cx ccs ctl =>
          rw [show hasTag t (Elem.mk ctg ca cx ccs ctl)
              = ((ctg == t) || hasTagList t ccs) from rfl] at hcfalse
          have : (ctg == t) = false := (Bool.or_eq_false_iff.mp hcfalse).1
          simpa [Elem.tag] using ne_of_beq_false this
      rw [hcs]

/-- Witness for C5 at a concrete document and absent tag. -/
theorem exclude_missing_tag_noop_witness :
    hasTag "z" (.mk "a" [] "" [.mk "b" [] "" [] ""] "") = false ∧
    canonicalString (.mk "a" [] "" [.mk "b" [] "" [] ""] "") (some "z")
      = canonicalString (.mk "a" [] "" [.mk "b" [] "" [] ""] "") none :=
  ⟨by decide, exclude_missing_tag_noop (.mk "a" [] "" [.mk "b" [] "" [] ""] "") "z" (by decide)⟩

/-! ## Claim C3: bottom-up normalization and the sort key -/

/-- With pairwise distinct attribute names (well-formed XML), sorting the
`(name, value)` pairs lexicographically is the same as sorting them by
name alone. -/
theorem attr_sort_by_name (a : List (String × String))
    (hn : (a.map Prod.fst).Nodup) :
    a.insertionSort attrLE = a.insertionSort nameLE := by
  apply sorted_perm_nodup_eq_by Prod.fst
  · exact (List.perm_insertionSort attrLE a).trans (List.perm_insertionSort nameLE a).symm
  · apply List.Pairwise.imp ?_ (List.sorted_insertionSort attrLE a)
    intro p q hpq
    rcases hpq with h | ⟨h, _⟩
    · exact Or.inl h
    · exact Or.inr h
  · exact List.sorted_insertionSort nameLE a
  · exact ((List.perm_insertionSort attrLE a).map Prod.fst).nodup_iff.mpr hn

/-- C3: normalization is bottom-up — every child is normalized first and
then the child list is (stably) sorted by `_element_sort_key`; the key of
an element depends only on its own tag and attributes, never on its text
or descendants; and for distinct attribute names the key is the tag
concatenated with the attribute values in ascending order of attribute
name. -/
theorem normalize_bottom_up_key_spec :
    (∀ (t : String) (a : List (String × String)) (x : String) (cs : List Elem) (tl : String),
      setSortedRec (Elem.mk t a x cs tl)
        = Elem.mk t a x ((cs.map setSortedRec).insertionSort keyLE) tl) ∧
    (∀ e₁ e₂ : Elem, e₁.tag = e₂.tag → e₁.attrib = e₂.attrib →
      elementSortKey e₁ = elementSortKey e₂) ∧
    (∀ e : Elem, (e.attrib.map Prod.fst).Nodup →
      elementSortKey e = e.tag ++ String.join ((e.attrib.insertionSort nameLE).map Prod.snd)) := by
  refine ⟨?_, ?_, ?_⟩
  · intro t a x cs tl
    rw [setSortedRec_mk]
    rfl
  · intro e₁ e₂ ht ha
    unfold elementSortKey
    rw [ht, ha]
  · intro e hn
    unfold elementSortKey
    rw [attr_sort_by_name e.attrib hn]

/-- Witness for C3: the key ignores text and children, and with two
attributes given out of name order the key uses ascending attribute-name
order. -/
theorem normalize_bottom_up_key_spec_witness :
    elementSortKey (Elem.mk "a" [("b", "1")] "xx" [Elem.mk "c" [] "" [] ""] "t")
      = elementSortKey (Elem.mk "a" [("b", "1")] "" [] "") ∧
    elementSortKey (Elem.mk "a" [("z", "2"), ("b", "1")] "" [] "")
      = (Elem.mk "a" [("z", "2"), ("b", "1")] "" [] "").tag
          ++ String.join ((((Elem.mk "a" [("z", "2"), ("b", "1")] "" [] "").attrib
              ).insertionSort nameLE).map Prod.snd) :=
  ⟨normalize_bottom_up_key_spec.2.1 _ _ rfl rfl,
   normalize_bottom_up_key_spec.2.2 (Elem.mk "a" [("z", "2"), ("b", "1")] "" [] "")
     (by decide)⟩

/-! ## Claim C1: order insensitivity -/

theorem map_key_map_setSorted :
    ∀ cs : List Elem, (cs.map setSortedRec).map elementSortKey = cs.map elementSortKey
  | [] => rfl
  | c :: cs => by
    rw [List.map_cons, List.map_cons, List.map_cons, elementSortKey_setSortedRec,
      map_key_map_setSorted cs]

mutual

theorem sibPerm_refl : ∀ e : Elem, SibPerm e e
  | .mk _ _ _ cs _ => SibPerm.mk (sibPermChildren_refl cs) (List.Perm.refl cs)

theorem sibPermChildren_refl : ∀ cs : List Elem, SibPermChildren cs cs
  | [] => .nil
  | c :: cs => .cons (sibPerm_refl c) (sibPermChildren_refl cs)

end

mutual

/-- Reordering siblings does not change the normalized tree, as long as
every sibling group (of the first document) has pairwise distinct sort
keys. -/
theorem sibPerm_setSorted : ∀ (d₁ d₂ : Elem), SibPerm d₁ d₂ → distinctKeys d₁ = true →
    setSortedRec d₁ = setSortedRec d₂
  | .mk t a x cs₁ tl, _, h, hk => by
    cases h with
    | @mk _ _ _ _ cs₂ cs₃ _ hpw hperm =>
      rw [setSortedRec_mk, setSortedRec_mk]
      have hk0 : (decide ((cs₁.map elementSortKey).Nodup) && distinctKeysList cs₁) = true := hk
      simp only [Bool.and_eq_true, decide_eq_true_eq] at hk0
      have hk₁ : (cs₁.map elementSortKey).Nodup := hk0.1
      have hk₂ : distinctKeysList cs₁ = true := hk0.2
      have h₁ : cs₁.map setSortedRec = cs₂.map setSortedRec :=
        sibPermChildren_map cs₁ cs₂ hpw hk₂
      have h₂ : (cs₂.map setSortedRec).Perm (cs₃.map setSortedRec) :=
        hperm.map setSortedRec
      have hp : (cs₁.map setSortedRec).Perm (cs₃.map setSortedRec) := h₁ ▸ h₂
      have hn : ((cs₁.map setSortedRec).map elementSortKey).Nodup := by
        rw [map_key_map_setSorted]
        exact hk₁
      rw [pySorted_eq_of_perm hp hn]

theorem sibPermChildren_map : ∀ (l₁ l₂ : List Elem), SibPermChildren l₁ l₂ →
    distinctKeysList l₁ = true → l₁.map setSortedRec = l₂.map setSortedRec
  | [], _, h, _ => by cases h; rfl
  | c :: cs, _, h, hk => by
    cases h with
    | @cons _ e₂ _ t₂ he ht =>
      have hk0 : (distinctKeys c && distinctKeysList cs) = true := hk
      simp only [Bool.and_eq_true] at hk0
      have hk₁ : distinctKeys c = true := hk0.1
      have hk₂ : distinctKeysList cs = true := hk0.2
      rw [List.map_cons, List.map_cons, sibPerm_setSorted c e₂ he hk₁,
        sibPermChildren_map cs t₂ ht hk₂]

end

/-- C1 (amended): two documents that differ only in the relative order of
sibling elements have equal canonical forms (for any `exclude_tag`,
including none) whenever every sibling group has pairwise distinct sort
keys (tag concatenated with sorted attribute values).  When reordered
siblings are tied — identical tag and attributes — the stable sort keeps
their original relative order, so documents whose tied siblings carry
different content serialize differently (see the counterexample). -/
theorem order_insensitive_distinct_keys (d₁ d₂ : Elem) (exc : Option String)
    (h : SibPerm d₁ d₂) (hk : distinctKeys d₁ = true) :
    canonicalString d₁ exc = canonicalString d₂ exc := by
  have hs : setSortedRec d₁ = setSortedRec d₂ := sibPerm_setSorted d₁ d₂ h hk
  cases exc with
  | none =>
    show stripWs (serializeElem (setSortedRec d₁)) = stripWs (serializeElem (setSortedRec d₂))
    rw [hs]
  | some t =>
    show stripWs (serializeElem (if t = "" then setSortedRec d₁
        else excludeTagFn (setSortedRec d₁) t))
      = stripWs (serializeElem (if t = "" then setSortedRec d₂
        else excludeTagFn (setSortedRec d₂) t))
    rw [hs]

/-- Witness for C1 (amended): swapping two siblings with distinct keys
(tags `a` and `b`) leaves the canonical form unchanged. -/
theorem order_insensitive_distinct_keys_witness :
    distinctKeys
      (Elem.mk "r" [] "" [Elem.mk "a" [] "" [] "", Elem.mk "b" [] "" [] ""] "") = true ∧
    canonicalString
        (Elem.mk "r" [] "" [Elem.mk "a" [] "" [] "", Elem.mk "b" [] "" [] ""] "") none
      = canonicalString
          (Elem.mk "r" [] "" [Elem.mk "b" [] "" [] "", Elem.mk "a" [] "" [] ""] "") none :=
  ⟨by decide,
   order_insensitive_distinct_keys _ _ none
     (SibPerm.mk (sibPermChildren_refl _)
       (List.Perm.swap (Elem.mk "b" [] "" [] "") (Elem.mk "a" [] "" [] "") []))
     (by decide)⟩

/-- Counterexample to C1 as stated: `<r><a><x/></a><a><y/></a></r>` and
`<r><a><y/></a><a><x/></a></r>` differ only in the relative order of two
siblings with identical tag (`a`) and identical (empty) attributes, yet
their canonical forms differ — the tied siblings keep their original
relative order under the stable sort. -/
theorem order_insensitivity_tie_counterexample :
    (Elem.mk "a" [] "" [Elem.mk "x" [] "" [] ""] "").tag
        = (Elem.mk "a" [] "" [Elem.mk "y" [] "" [] ""] "").tag ∧
    (Elem.mk "a" [] "" [Elem.mk "x" [] "" [] ""] "").attrib
        = (Elem.mk "a" [] "" [Elem.mk "y" [] "" [] ""] "").attrib ∧
    SibPerm
      (Elem.mk "r" [] "" [Elem.mk "a" [] "" [Elem.mk "x" [] "" [] ""] "",
                          Elem.mk "a" [] "" [Elem.mk "y" [] "" [] ""] ""] "")
      (Elem.mk "r" [] "" [Elem.mk "a" [] "" [Elem.mk "y" [] "" [] ""] "",
                          Elem.mk "a" [] "" [Elem.mk "x" [] "" [] ""] ""] "") ∧
    canonicalString
        (Elem.mk "r" [] "" [Elem.mk "a" [] "" [Elem.mk "x" [] "" [] ""] "",
                            Elem.mk "a" [] "" [Elem.mk "y" [] "" [] ""] ""] "") none
      ≠ canonicalString
          (Elem.mk "r" [] "" [Elem.mk "a" [] "" [Elem.mk "y" [] "" [] ""] "",
                              Elem.mk "a" [] "" [Elem.mk "x" [] "" [] ""] ""] "") none := by
  refine ⟨rfl, rfl, ?_, by decide⟩
  exact SibPerm.mk (sibPermChildren_refl _)
    (List.Perm.swap (Elem.mk "a" [] "" [Elem.mk "y" [] "" [] ""] "")
      (Elem.mk "a" [] "" [Elem.mk "x" [] "" [] ""] "") [])

/-! ## Claim C8: `unique_check` -/

/-- C8: `unique_check(l, msg)` raises `EmptyError` when `l` is empty,
raises `NotUniqueError` when `l` has more than one element, and returns
normally exactly when `l` has length one. -/
theorem unique_check_spec {α : Type} (l : List α) (msg : String) :
    (l.length = 0 → unique_check l msg = .error (.emptyError ("No item found for " ++ msg))) ∧
    (1 < l.length →
      unique_check l msg = .error (.notUniqueError ("Multiple items found for " ++ msg))) ∧
    (unique_check l msg = .ok () ↔ l.length = 1) := by
  refine ⟨?_, ?_, ?_, ?_⟩
  · intro h
    simp [unique_check, h]
  · intro h
    have h0 : ¬ l.length = 0 := by omega
    have h1 : ¬ l.length = 1 := by omega
    simp [unique_check, h0, h1]
  · intro h
    by_contra hne
    rcases Nat.lt_trichotomy l.length 1 with hl | hl | hl
    · have h0 : l.length = 0 := by omega
      simp [unique_check, h0] at h
    · exact hne hl
    · have h0 : ¬ l.length = 0 := by omega
      have h1 : ¬ l.length = 1 := by omega
      simp [unique_check, h0, h1] at h
  · intro h
    simp [unique_check, h]

/-- Witness for C8 at concrete inputs. -/
theorem unique_check_spec_witness :
    unique_check ([] : List Nat) "q" = .error (.emptyError ("No item found for " ++ "q")) ∧
    unique_check [1, 2] "q" = .error (.notUniqueError ("Multiple items found for " ++ "q")) ∧
    unique_check [7] "q" = .ok () :=
  ⟨(unique_check_spec [] "q").1 rfl,
   (unique_check_spec [1, 2] "q").2.1 (by decide),
   (unique_check_spec [7] "q").2.2.mpr rfl⟩

/-! ## Claim C9: `set_field` -/

/-- C9: `set_field` suppresses a `TypeError` or `HTTPError` raised by
`element.put()` (returning normally after logging a warning); any other
exception propagates, and a successful `put` returns normally with no
warning. -/
theorem set_field_spec (r : Except PyExn Unit) :
    (∀ e, r = .error e → (e = .typeError ∨ e = .httpError) → set_field r = (.ok (), [e])) ∧
    (∀ e, r = .error e → e ≠ .typeError → e ≠ .httpError → set_field r = (.error e, [])) ∧
    (r = .ok () → set_field r = (.ok (), [])) := by
  refine ⟨?_, ?_, ?_⟩
  · intro e he hcaught
    subst he
    simp [set_field, hcaught]
  · intro e he h₁ h₂
    subst he
    have : ¬ (e = .typeError ∨ e = .httpError) := by
      rintro (h | h)
      exacts [h₁ h, h₂ h]
    simp [set_field, this]
  · intro h
    subst h
    rfl

/-- Witness for C9 at concrete outcomes of `put`. -/
theorem set_field_spec_witness :
    set_field (Except.error PyExn.typeError) = (Except.ok (), [PyExn.typeError]) ∧
    set_field (Except.error PyExn.httpError) = (Except.ok (), [PyExn.httpError]) ∧
    set_field (Except.error (PyExn.otherExn "ValueError"))
      = (Except.error (PyExn.otherExn "ValueError"), []) ∧
    set_field (Except.ok ()) = (Except.ok (), []) :=
  ⟨(set_field_spec (Except.error PyExn.typeError)).1 PyExn.typeError rfl (Or.inl rfl),
   (set_field_spec (Except.error PyExn.httpError)).1 PyExn.httpError rfl (Or.inr rfl),
   (set_field_spec (Except.error (PyExn.otherExn "ValueError"))).2.1 _ rfl
     (by decide) (by decide),
   (set_field_spec (Except.ok ())).2.2 rfl⟩

/-! ## Claim C10: `CopyField.copy_udf` -/

/-- C10: when the captured source field value equals the previously
recorded destination UDF value, `copy_udf` returns `False` with the world
completely unchanged (no changelog write, no UDF change, no remote
update); when they differ, exactly one remote update is attempted. -/
theorem copyUdf_spec (st : CopyFieldState) (put : Except PyExn Unit)
    (cg : Bool) (w : LimsWorld) :
    (st.sField = st.oldDestUdf → copyUdf st put cg w = .ret false w) ∧
    (st.sField ≠ st.oldDestUdf →
      (copyUdf st put cg w).world.putAttempts = w.putAttempts + 1) := by
  constructor
  · intro h
    simp [copyUdf, h]
  · intro h
    cases put with
    | ok u => cases cg <;> simp [copyUdf, h, CopyOutcome.world]
    | error e =>
      by_cases hc : e = PyExn.typeError ∨ e = PyExn.httpError <;>
        cases cg <;> simp [copyUdf, h, hc, CopyOutcome.world]

/-- Witness for C10 at concrete states. -/
theorem copyUdf_spec_witness :
    copyUdf ⟨some "v", some "v", "udf"⟩ (.ok ()) true ⟨[("udf", some "v")], [], 0⟩
      = .ret false ⟨[("udf", some "v")], [], 0⟩ ∧
    (copyUdf ⟨some "new", some "old", "udf"⟩ (.ok ()) true
      ⟨[("udf", some "old")], [], 0⟩).world.putAttempts = 1 :=
  ⟨(copyUdf_spec ⟨some "v", some "v", "udf"⟩ (.ok ()) true ⟨[("udf", some "v")], [], 0⟩).1 rfl,
   (copyUdf_spec ⟨some "new", some "old", "udf"⟩ (.ok ()) true
      ⟨[("udf", some "old")], [], 0⟩).2 (by decide)⟩

/-! ## Claim C7: `ComparableXml.__init__` and parse errors -/

/-- C7: constructing `ComparableXml` propagates the parser's `ParseError`
on malformed input and succeeds (storing the normalized, optionally
pruned root) whenever parsing succeeds — `__init__` adds no failure of
its own and catches nothing. -/
theorem comparableXmlInit_spec (fromstring : String → Except PyExn Elem)
    (s : String) (exc : Option String) :
    (∀ e, fromstring s = .error e → comparableXmlInit fromstring s exc = .error e) ∧
    (∀ root, fromstring s = .ok root →
      comparableXmlInit fromstring s exc = .ok (comparableRoot root exc)) := by
  constructor
  · intro e he
    simp [comparableXmlInit, he]
  · intro root hr
    simp [comparableXmlInit, hr]

/-- Witness for C7 with a concrete parser that accepts exactly one
document. -/
theorem comparableXmlInit_spec_witness :
    comparableXmlInit
        (fun s => if s = "<a/>" then .ok (.mk "a" [] "" [] "") else .error .parseError)
        "<a" none = .error .parseError ∧
    comparableXmlInit
        (fun s => if s = "<a/>" then .ok (.mk "a" [] "" [] "") else .error .parseError)
        "<a/>" none = .ok (comparableRoot (.mk "a" [] "" [] "") none) :=
  ⟨(comparableXmlInit_spec _ "<a" none).1 .parseError (by simp),
   (comparableXmlInit_spec _ "<a/>" none).2 (.mk "a" [] "" [] "") (by simp)⟩

/-! ## Claim C4: `ComparableXml.tostring` -/

/-- C4 (code bug): `tostring()` as written never returns the canonical
string — `ET.tostring(self.root)` returns a `bytes` object while
`re.sub` is given the `str` pattern `r'\s+'`, so every call raises
`TypeError` instead of returning the whitespace-free serialization that
the spec (and the repository's own tests) expect. -/
theorem tostringMethod_raises (root : Elem) :
    tostringMethod root = .error .typeError := rfl

/-! ## Claim C6: differing attribute values -/

theorem serializeElem_mk (t : String) (a : List (String × String)) (x : String)
    (cs : List Elem) (tl : String) :
    serializeElem (.mk t a x cs tl) = "<" ++ t ++ attribsString a ++ serializeRest t x cs tl :=
  rfl

theorem data_append (a b : String) : (a ++ b).data = a.data ++ b.data := by
  cases a
  cases b
  rfl

theorem data_mk (l : List Char) : (⟨l⟩ : String).data = l := rfl

theorem decodeEsc_escape (c : Char) (r : List Char) :
    decodeEsc (escapeAttribChar c ++ r) = some (c, r) := by
  by_cases h₁ : c = '&'
  · subst h₁
    simp [escapeAttribChar, decodeEsc]
  by_cases h₂ : c = '<'
  · subst h₂
    simp [escapeAttribChar, decodeEsc, h₁]
  by_cases h₃ : c = '>'
  · subst h₃
    simp [escapeAttribChar, decodeEsc]
  by_cases h₄ : c = '\"'
  · subst h₄
    simp [escapeAttribChar, decodeEsc]
  by_cases h₅ : c = '\r'
  · subst h₅
    simp [escapeAttribChar, decodeEsc]
  by_cases h₆ : c = '\n'
  · subst h₆
    simp [escapeAttribChar, decodeEsc]
  by_cases h₇ : c = '\t'
  · subst h₇
    simp [escapeAttribChar, decodeEsc]
  have he : escapeAttribChar c = [c] := by
    simp [escapeAttribChar, h₁, h₂, h₃, h₄, h₅, h₆, h₇]
  rw [he]
  show decodeEsc (c :: r) = some (c, r)
  simp [decodeEsc, h₁]

theorem escapeAttribL_inj : ∀ l₁ l₂ : List Char, escapeAttribL l₁ = escapeAttribL l₂ → l₁ = l₂
  | [], [], _ => rfl
  | [], c :: cs, h => by
    exfalso
    have h₂ : (none : Option (Char × List Char)) = some (c, escapeAttribL cs) := by
      calc (none : Option (Char × List Char))
          = decodeEsc (escapeAttribL []) := rfl
        _ = decodeEsc (escapeAttribL (c :: cs)) := by rw [h]
        _ = some (c, escapeAttribL cs) := decodeEsc_escape c (escapeAttribL cs)
    exact Option.noConfusion h₂
  | c :: cs, [], h => by
    exfalso
    have h₂ : (none : Option (Char × List Char)) = some (c, escapeAttribL cs) := by
      calc (none : Option (Char × List Char))
          = decodeEsc (escapeAttribL []) := rfl
        _ = decodeEsc (escapeAttribL (c :: cs)) := by rw [h]
        _ = some (c, escapeAttribL cs) := decodeEsc_escape c (escapeAttribL cs)
    exact Option.noConfusion h₂
  | c₁ :: cs₁, c₂ :: cs₂, h => by
    have h₂ : some (c₁, escapeAttribL cs₁) = some (c₂, escapeAttribL cs₂) := by
      calc some (c₁, escapeAttribL cs₁)
          = decodeEsc (escapeAttribL (c₁ :: cs₁)) := (decodeEsc_escape c₁ _).symm
        _ = decodeEsc (escapeAttribL (c₂ :: cs₂)) := by rw [h]
        _ = some (c₂, escapeAttribL cs₂) := decodeEsc_escape c₂ _
    have h₃ := Option.some.inj h₂
    have hc : c₁ = c₂ := congrArg Prod.fst h₃
    have ht : escapeAttribL cs₁ = escapeAttribL cs₂ := congrArg Prod.snd h₃
    rw [hc, escapeAttribL_inj cs₁ cs₂ ht]

theorem filter_escapeAttribChar (c : Char) :
    (escapeAttribChar c).filter (fun d => !pySpaceB d)
      = if keepB c then escapeAttribChar c else [] := by
  by_cases h₁ : c = '&'
  · subst h₁
    decide
  by_cases h₂ : c = '<'
  · subst h₂
    decide
  by_cases h₃ : c = '>'
  · subst h₃
    decide
  by_cases h₄ : c = '\"'
  · subst h₄
    decide
  by_cases h₅ : c = '\r'
  · subst h₅
    decide
  by_cases h₆ : c = '\n'
  · subst h₆
    decide
  by_cases h₇ : c = '\t'
  · subst h₇
    decide
  have he : escapeAttribChar c = [c] := by
    simp [escapeAttribChar, h₁, h₂, h₃, h₄, h₅, h₆, h₇]
  rw [he]
  by_cases hw : pySpaceB c
  · have hk : keepB c = false := by
      simp [keepB, hw, beq_iff_eq, h₅, h₆, h₇]
    simp [List.filter, hw, hk]
  · have hk : keepB c = true := by
      simp [keepB, hw]
    simp [List.filter, hw, hk]

theorem filter_escapeAttribL :
    ∀ l : List Char, (escapeAttribL l).filter (fun d => !pySpaceB d)
      = escapeAttribL (l.filter keepB)
  | [] => rfl
  | c :: cs => by
    show (escapeAttribChar c ++ escapeAttribL cs).filter (fun d => !pySpaceB d)
        = escapeAttribL ((c :: cs).filter keepB)
    rw [List.filter_append, filter_escapeAttribChar, filter_escapeAttribL cs]
    by_cases hk : keepB c
    · rw [if_pos hk]
      simp only [List.filter_cons, hk, if_pos]
      rfl
    · rw [if_neg hk]
      have hk2 : keepB c = false := Bool.eq_false_iff.mpr hk
      simp only [List.filter_cons, hk2, Bool.false_eq_true, if_false, List.nil_append]

theorem filter_keep_strip (l : List Char) :
    (l.filter keepB).filter (fun d => !pySpaceB d) = l.filter (fun d => !pySpaceB d) := by
  induction l with
  | nil => rfl
  | cons c cs ih =>
    by_cases hw : pySpaceB c
    · by_cases hk : keepB c <;> simp [List.filter_cons, hk, hw, ih]
    · have hk : keepB c = true := by simp [keepB, hw]
      simp [List.filter_cons, hk, hw, ih]

/-! ### The markup scanner: single steps -/

theorem scanM_text_lt (d : Nat) (r : List Char) :
    scanM d .text ('<' :: r) = scanM d .afterLt r := by
  simp [scanM]

theorem scanM_text_other (d : Nat) {c : Char} (h : c ≠ '<') (r : List Char) :
    scanM d .text (c :: r) = scanM d .text r := by
  simp [scanM, h]

theorem scanM_afterLt_slash (d : Nat) (r : List Char) :
    scanM d .afterLt ('/' :: r) = scanM d .etag r := by
  simp [scanM]

theorem scanM_afterLt_name (d : Nat) {c : Char} (h₁ : c ≠ '/') (h₂ : c ≠ '>')
    (h₃ : c ≠ '\"') (r : List Char) :
    scanM d .afterLt (c :: r) = scanM d (.stag false false) r := by
  simp [scanM, h₁, h₂, h₃]

theorem scanM_stag_other (d : Nat) {c : Char} (h₁ : c ≠ '\"') (h₂ : c ≠ '>')
    (h₃ : c ≠ '/') (r : List Char) :
    scanM d (.stag false false) (c :: r) = scanM d (.stag false false) r := by
  simp [scanM, h₁, h₂, h₃]

theorem scanM_stag_quote_open (d : Nat) (r : List Char) :
    scanM d (.stag false false) ('\"' :: r) = scanM d (.stag false true) r := by
  simp [scanM]

theorem scanM_quote_other (d : Nat) {c : Char} (h : c ≠ '\"') (r : List Char) :
    scanM d (.stag false true) (c :: r) = scanM d (.stag false true) r := by
  simp [scanM, h]

theorem scanM_quote_close (d : Nat) (r : List Char) :
    scanM d (.stag false true) ('\"' :: r) = scanM d (.stag false false) r := by
  simp [scanM]

theorem scanM_stag_slash (d : Nat) (r : List Char) :
    scanM d (.stag false false) ('/' :: r) = scanM d (.stag true false) r := by
  simp [scanM]

theorem scanM_stag_open (d : Nat) (r : List Char) :
    scanM d (.stag false false) ('>' :: r) = scanM (d + 1) .text r := by
  simp [scanM]

theorem scanM_selfclose_top (r : List Char) :
    scanM 0 (.stag true false) ('>' :: r) = some r := by
  simp [scanM]

theorem scanM_selfclose_deep (d : Nat) (r : List Char) :
    scanM (d + 1) (.stag true false) ('>' :: r) = scanM (d + 1) .text r := by
  simp [scanM]

theorem scanM_etag_other (d : Nat) {c : Char} (h : c ≠ '>') (r : List Char) :
    scanM d .etag (c :: r) = scanM d .etag r := by
  simp [scanM, h]

theorem scanM_etag_close_top (r : List Char) :
    scanM 1 .etag ('>' :: r) = some r := by
  simp [scanM]

theorem scanM_etag_close_deep (d : Nat) (r : List Char) :
    scanM (d + 2) .etag ('>' :: r) = scanM (d + 1) .text r := by
  simp [scanM]

/-! ### The markup scanner: skipping character classes -/

theorem scan_text_skip (d : Nat) : ∀ (s : List Char), (∀ c ∈ s, c ≠ '<') →
    ∀ r, scanM d .text (s ++ r) = scanM d .text r
  | [], _, r => rfl
  | c :: s, h, r => by
    rw [List.cons_append, scanM_text_other d (h c (List.mem_cons_self c s)),
      scan_text_skip d s (fun x hx => h x (List.mem_cons_of_mem c hx))]

theorem scan_stag_skip (d : Nat) : ∀ (s : List Char),
    (∀ c ∈ s, c ≠ '\"' ∧ c ≠ '>' ∧ c ≠ '/') →
    ∀ r, scanM d (.stag false false) (s ++ r) = scanM d (.stag false false) r
  | [], _, r => rfl
  | c :: s, h, r => by
    obtain ⟨h₁, h₂, h₃⟩ := h c (List.mem_cons_self c s)
    rw [List.cons_append, scanM_stag_other d h₁ h₂ h₃,
      scan_stag_skip d s (fun x hx => h x (List.mem_cons_of_mem c hx))]

theorem scan_quote_skip (d : Nat) : ∀ (s : List Char), (∀ c ∈ s, c ≠ '\"') →
    ∀ r, scanM d (.stag false true) (s ++ r) = scanM d (.stag false true) r
  | [], _, r => rfl
  | c :: s, h, r => by
    rw [List.cons_append, scanM_quote_other d (h c (List.mem_cons_self c s)),
      scan_quote_skip d s (fun x hx => h x (List.mem_cons_of_mem c hx))]

theorem scan_etag_skip (d : Nat) : ∀ (s : List Char), (∀ c ∈ s, c ≠ '>') →
    ∀ r, scanM d .etag (s ++ r) = scanM d .etag r
  | [], _, r => rfl
  | c :: s, h, r => by
    rw [List.cons_append, scanM_etag_other d (h c (List.mem_cons_self c s)),
      scan_etag_skip d s (fun x hx => h x (List.mem_cons_of_mem c hx))]

/-! ### Character classes of serialized pieces -/

theorem xmlNameChar_spec {c : Char} (h : xmlNameChar c = true) :
    c ≠ '<' ∧ c ≠ '>' ∧ c ≠ '\"' ∧ c ≠ '/' ∧ pySpaceB c = false := by
  rw [xmlNameChar, Bool.not_eq_true'] at h
  simp only [Bool.or_eq_false_iff, beq_eq_false_iff_ne] at h
  exact ⟨h.1.1.1.1.1.1, h.1.1.1.1.1.2, h.1.1.1.1.2, h.1.1.2, h.2⟩

theorem wfName_spec {s : String} (h : wfName s = true) :
    s.data ≠ [] ∧ ∀ c ∈ s.data, xmlNameChar c = true := by
  rw [wfName, Bool.and_eq_true, Bool.not_eq_true'] at h
  simp only [beq_eq_false_iff_ne, List.all_eq_true] at h
  refine ⟨?_, h.2⟩
  intro hd
  exact h.1 (string_data_eq hd)

theorem wfName_strip {s : String} (h : wfName s = true) :
    s.data.filter (fun c => !pySpaceB c) = s.data := by
  apply List.filter_eq_self.mpr
  intro c hc
  have := (xmlNameChar_spec ((wfName_spec h).2 c hc)).2.2.2.2
  simp [this]

theorem escapeAttribChar_no_quote (c : Char) : ∀ x ∈ escapeAttribChar c, x ≠ '\"' := by
  by_cases h₁ : c = '&'
  · subst h₁; decide
  by_cases h₂ : c = '<'
  · subst h₂; decide
  by_cases h₃ : c = '>'
  · subst h₃; decide
  by_cases h₄ : c = '\"'
  · subst h₄; decide
  by_cases h₅ : c = '\r'
  · subst h₅; decide
  by_cases h₆ : c = '\n'
  · subst h₆; decide
  by_cases h₇ : c = '\t'
  · subst h₇; decide
  have he : escapeAttribChar c = [c] := by
    simp [escapeAttribChar, h₁, h₂, h₃, h₄, h₅, h₆, h₇]
  rw [he]
  intro x hx
  rw [List.mem_singleton.mp hx]
  exact h₄

theorem escapeAttribL_no_quote : ∀ l : List Char, ∀ x ∈ escapeAttribL l, x ≠ '\"'
  | [], _, hx, _ => by cases hx
  | c :: cs, x, hx, hq => by
    rw [show escapeAttribL (c :: cs) = escapeAttribChar c ++ escapeAttribL cs from rfl] at hx
    rcases List.mem_append.mp hx with h | h
    · exact escapeAttribChar_no_quote c x h hq
    · exact escapeAttribL_no_quote cs x h hq

theorem escapeCdataChar_no_lt (c : Char) : ∀ x ∈ escapeCdataChar c, x ≠ '<' := by
  by_cases h₁ : c = '&'
  · subst h₁; decide
  by_cases h₂ : c = '<'
  · subst h₂; decide
  by_cases h₃ : c = '>'
  · subst h₃; decide
  have he : escapeCdataChar c = [c] := by
    simp [escapeCdataChar, h₁, h₂, h₃]
  rw [he]
  intro x hx
  rw [List.mem_singleton.mp hx]
  exact h₂

theorem escapeCdataL_no_lt : ∀ l : List Char, ∀ x ∈ escapeCdataL l, x ≠ '<'
  | [], _, hx, _ => by cases hx
  | c :: cs, x, hx, hl => by
    rw [show escapeCdataL (c :: cs) = escapeCdataChar c ++ escapeCdataL cs from rfl] at hx
    rcases List.mem_append.mp hx with h | h
    · exact escapeCdataChar_no_lt c x h hl
    · exact escapeCdataL_no_lt cs x h hl

theorem mem_of_mem_strip {c : Char} {l : List Char}
    (h : c ∈ l.filter (fun d => !pySpaceB d)) : c ∈ l :=
  (List.mem_filter.mp h).1

/-- The scanner passes over a whole serialized attribute list without
leaving start-tag state. -/
theorem scan_attrs (d : Nat) : ∀ (a : List (String × String)),
    (∀ p ∈ a, wfName p.1 = true) →
    ∀ r, scanM d (.stag false false)
        ((attribsString a).data.filter (fun c => !pySpaceB c) ++ r)
      = scanM d (.stag false false) r
  | [], _, r => rfl
  | (k, v) :: rest, h, r => by
    have hk := h (k, v) (List.mem_cons_self _ _)
    have hkc : ∀ c ∈ k.data, c ≠ '\"' ∧ c ≠ '>' ∧ c ≠ '/' := by
      intro c hc
      have hs := xmlNameChar_spec ((wfName_spec hk).2 c hc)
      exact ⟨hs.2.2.1, hs.2.1, hs.2.2.2.1⟩
    have hvq : ∀ c ∈ (escapeAttribL v.data).filter (fun x => !pySpaceB x), c ≠ '\"' :=
      fun c hc => escapeAttribL_no_quote v.data c (mem_of_mem_strip hc)
    show scanM d (.stag false false)
        ((" " ++ k ++ "=\"" ++ escapeAttrib v ++ "\"" ++ attribsString rest).data.filter
          (fun c => !pySpaceB c) ++ r) = scanM d (.stag false false) r
    simp only [data_append, List.filter_append, List.append_assoc, escapeAttrib, data_mk,
      wfName_strip hk, List.filter_cons, List.filter_nil, List.cons_append, List.nil_append,
      (by decide : (!pySpaceB (' ' : Char)) = false),
      (by decide : (!pySpaceB ('=' : Char)) = true),
      (by decide : (!pySpaceB ('\"' : Char)) = true),
      if_true, if_false, Bool.false_eq_true]
    rw [scan_stag_skip d k.data hkc,
      scanM_stag_other d (by decide) (by decide) (by decide),
      scanM_stag_quote_open,
      scan_quote_skip d _ hvq,
      scanM_quote_close,
      scan_attrs d rest (fun p hp => h p (List.mem_cons_of_mem _ hp))]

/-! ### The scanner consumes exactly one element's markup -/

mutual

/-- Below the top level, scanning a whole stripped fragment (markup and
tail) returns to character-data state at the same depth. -/
theorem scan_frag_deep : ∀ (e : Elem), wfElem e = true → ∀ (d : Nat) (r : List Char),
    scanM (d + 1) .text ((serializeElem e).data.filter (fun c => !pySpaceB c) ++ r)
      = scanM (d + 1) .text r
  | .mk t a x cs tl, hw, d, r => by
    have h0 : (wfName t && a.all (fun p => wfName p.1) && wfList cs) = true := hw
    simp only [Bool.and_eq_true] at h0
    have ht : wfName t = true := h0.1.1
    have ha : ∀ p ∈ a, wfName p.1 = true := List.all_eq_true.mp h0.1.2
    have hcs : wfList cs = true := h0.2
    obtain ⟨htne, htc⟩ := wfName_spec ht
    have htl : ∀ c ∈ (escapeCdataL tl.data).filter (fun z => !pySpaceB z), c ≠ '<' :=
      fun c hc => escapeCdataL_no_lt tl.data c (mem_of_mem_strip hc)
    cases htd : t.data with
    | nil => exact absurd htd htne
    | cons c₀ t₁ =>
      have hc₀ := xmlNameChar_spec (htc c₀ (htd ▸ List.mem_cons_self c₀ t₁))
      have ht₁ : ∀ c ∈ t₁, c ≠ '\"' ∧ c ≠ '>' ∧ c ≠ '/' := by
        intro c hc
        have hs := xmlNameChar_spec (htc c (htd ▸ List.mem_cons_of_mem c₀ hc))
        exact ⟨hs.2.2.1, hs.2.1, hs.2.2.2.1⟩
      have ht₁e : ∀ c ∈ t₁, c ≠ '>' := fun c hc => (ht₁ c hc).2.1
      have hc₀w : (!pySpaceB c₀) = true := by
        rw [hc₀.2.2.2.2]
        rfl
      have ht₁s : List.filter (fun c => !pySpaceB c) t₁ = t₁ := by
        apply List.filter_eq_self.mpr
        intro c hc
        rw [(xmlNameChar_spec (htc c (htd ▸ List.mem_cons_of_mem c₀ hc))).2.2.2.2]
        rfl
      rw [serializeElem_mk]
      unfold serializeRest
      by_cases hcond : ((x == "") && cs.isEmpty) = true
      · rw [if_pos hcond]
        simp only [data_append, List.filter_append, List.append_assoc, escapeCdata,
          data_mk, wfName_strip ht, htd, hc₀w, ht₁s, List.filter_cons, List.filter_nil,
          List.cons_append, List.nil_append,
          (by decide : (!pySpaceB ('<' : Char)) = true),
          (by decide : (!pySpaceB ('/' : Char)) = true),
          (by decide : (!pySpaceB ('>' : Char)) = true),
          (by decide : (!pySpaceB (' ' : Char)) = false),
          if_true, if_false, Bool.false_eq_true]
        rw [scanM_text_lt,
          scanM_afterLt_name (d + 1) hc₀.2.2.2.1 hc₀.2.1 hc₀.2.2.1,
          scan_stag_skip (d + 1) t₁ ht₁,
          scan_attrs (d + 1) a ha,
          scanM_stag_slash, scanM_selfclose_deep,
          scan_text_skip (d + 1) _ htl]
      · rw [if_neg hcond]
        have hx : ∀ c ∈ (escapeCdataL x.data).filter (fun z => !pySpaceB z), c ≠ '<' :=
          fun c hc => escapeCdataL_no_lt x.data c (mem_of_mem_strip hc)
        simp only [data_append, List.filter_append, List.append_assoc, escapeCdata,
          data_mk, wfName_strip ht, htd, hc₀w, ht₁s, List.filter_cons, List.filter_nil,
          List.cons_append, List.nil_append,
          (by decide : (!pySpaceB ('<' : Char)) = true),
          (by decide : (!pySpaceB ('/' : Char)) = true),
          (by decide : (!pySpaceB ('>' : Char)) = true),
          (by decide : (!pySpaceB (' ' : Char)) = false),
          if_true, if_false, Bool.false_eq_true]
        rw [scanM_text_lt,
          scanM_afterLt_name (d + 1) hc₀.2.2.2.1 hc₀.2.1 hc₀.2.2.1,
          scan_stag_skip (d + 1) t₁ ht₁,
          scan_attrs (d + 1) a ha,
          scanM_stag_open,
          scan_text_skip (d + 2) _ hx,
          scan_list_deep cs hcs (d + 1),
          scanM_text_lt, scanM_afterLt_slash,
          scanM_etag_other (d + 2) hc₀.2.1,
          scan_etag_skip (d + 2) t₁ ht₁e,
          scanM_etag_close_deep,
          scan_text_skip (d + 1) _ htl]

/-- Below the top level, scanning the serialization of a whole child
list returns to character-data state at the same depth. -/
theorem scan_list_deep : ∀ (cs : List Elem), wfList cs = true → ∀ (d : Nat) (r : List Char),
    scanM (d + 1) .text ((serializeList cs).data.filter (fun c => !pySpaceB c) ++ r)
      = scanM (d + 1) .text r
  | [], _, _, _ => rfl
  | c :: cs, hw, d, r => by
    have h0 : (wfElem c && wfList cs) = true := hw
    simp only [Bool.and_eq_true] at h0
    show scanM (d + 1) .text
        ((serializeElem c ++ serializeList cs).data.filter (fun z => !pySpaceB z) ++ r)
      = scanM (d + 1) .text r
    rw [data_append, List.filter_append, List.append_assoc,
      scan_frag_deep c h0.1 d, scan_list_deep cs h0.2 d]

end

/-- At the top level, the scanner consumes exactly the markup of the
element and returns what follows (the stripped tail, then whatever
came after the fragment). -/
theorem scan_frag_top (e : Elem) (hw : wfElem e = true) (r : List Char) :
    scanM 0 .text ((serializeElem e).data.filter (fun c => !pySpaceB c) ++ r)
      = some ((escapeCdataL e.tail.data).filter (fun c => !pySpaceB c) ++ r) := by
  cases e with
  | mk t a x cs tl =>
    have h0 : (wfName t && a.all (fun p => wfName p.1) && wfList cs) = true := hw
    simp only [Bool.and_eq_true] at h0
    have ht : wfName t = true := h0.1.1
    have ha : ∀ p ∈ a, wfName p.1 = true := List.all_eq_true.mp h0.1.2
    have hcs : wfList cs = true := h0.2
    obtain ⟨htne, htc⟩ := wfName_spec ht
    cases htd : t.data with
    | nil => exact absurd htd htne
    | cons c₀ t₁ =>
      have hc₀ := xmlNameChar_spec (htc c₀ (htd ▸ List.mem_cons_self c₀ t₁))
      have ht₁ : ∀ c ∈ t₁, c ≠ '\"' ∧ c ≠ '>' ∧ c ≠ '/' := by
        intro c hc
        have hs := xmlNameChar_spec (htc c (htd ▸ List.mem_cons_of_mem c₀ hc))
        exact ⟨hs.2.2.1, hs.2.1, hs.2.2.2.1⟩
      have ht₁e : ∀ c ∈ t₁, c ≠ '>' := fun c hc => (ht₁ c hc).2.1
      have hc₀w : (!pySpaceB c₀) = true := by
        rw [hc₀.2.2.2.2]
        rfl
      have ht₁s : List.filter (fun c => !pySpaceB c) t₁ = t₁ := by
        apply List.filter_eq_self.mpr
        intro c hc
        rw [(xmlNameChar_spec (htc c (htd ▸ List.mem_cons_of_mem c₀ hc))).2.2.2.2]
        rfl
      show scanM 0 .text
          (("<" ++ t ++ attribsString a ++ serializeRest t x cs tl).data.filter
            (fun c => !pySpaceB c) ++ r) = _
      unfold serializeRest
      by_cases hcond : ((x == "") && cs.isEmpty) = true
      · rw [if_pos hcond]
        simp only [data_append, List.filter_append, List.append_assoc, escapeCdata,
          data_mk, wfName_strip ht, htd, hc₀w, ht₁s, List.filter_cons, List.filter_nil,
          List.cons_append, List.nil_append,
          (by decide : (!pySpaceB ('<' : Char)) = true),
          (by decide : (!pySpaceB ('/' : Char)) = true),
          (by decide : (!pySpaceB ('>' : Char)) = true),
          (by decide : (!pySpaceB (' ' : Char)) = false),
          if_true, if_false, Bool.false_eq_true]
        rw [scanM_text_lt,
          scanM_afterLt_name 0 hc₀.2.2.2.1 hc₀.2.1 hc₀.2.2.1,
          scan_stag_skip 0 t₁ ht₁,
          scan_attrs 0 a ha,
          scanM_stag_slash, scanM_selfclose_top]
        rfl
      · rw [if_neg hcond]
        have hx : ∀ c ∈ (escapeCdataL x.data).filter (fun z => !pySpaceB z), c ≠ '<' :=
          fun c hc => escapeCdataL_no_lt x.data c (mem_of_mem_strip hc)
        simp only [data_append, List.filter_append, List.append_assoc, escapeCdata,
          data_mk, wfName_strip ht, htd, hc₀w, ht₁s, List.filter_cons, List.filter_nil,
          List.cons_append, List.nil_append,
          (by decide : (!pySpaceB ('<' : Char)) = true),
          (by decide : (!pySpaceB ('/' : Char)) = true),
          (by decide : (!pySpaceB ('>' : Char)) = true),
          (by decide : (!pySpaceB (' ' : Char)) = false),
          if_true, if_false, Bool.false_eq_true]
        rw [scanM_text_lt,
          scanM_afterLt_name 0 hc₀.2.2.2.1 hc₀.2.1 hc₀.2.2.1,
          scan_stag_skip 0 t₁ ht₁,
          scan_attrs 0 a ha,
          scanM_stag_open,
          scan_text_skip 1 _ hx,
          scan_list_deep cs hcs 0,
          scanM_text_lt, scanM_afterLt_slash,
          scanM_etag_other 1 hc₀.2.1,
          scan_etag_skip 1 t₁ ht₁e,
          scanM_etag_close_top]
        rfl

/-! ### Fragment sequences are uniquely decodable -/

theorem noLt_framing : ∀ (t₁ t₂ r₁ r₂ : List Char),
    (∀ c ∈ t₁, c ≠ '<') → (∀ c ∈ t₂, c ≠ '<') →
    startsLtOrNil r₁ → startsLtOrNil r₂ →
    t₁ ++ r₁ = t₂ ++ r₂ → t₁ = t₂ ∧ r₁ = r₂
  | [], [], r₁, r₂, _, _, _, _, h => ⟨rfl, h⟩
  | [], c :: t₂, r₁, r₂, _, h₂, hr₁, _, h => by
    exfalso
    rcases hr₁ with h0 | ⟨s, h0⟩
    · rw [h0] at h
      exact List.cons_ne_nil c (t₂ ++ r₂) h.symm
    · rw [h0] at h
      have : c = '<' := (List.cons.injEq _ _ _ _ ▸ h).1.symm
      exact h₂ c (List.mem_cons_self c t₂) this
  | c :: t₁, [], r₁, r₂, h₁, _, _, hr₂, h => by
    exfalso
    rcases hr₂ with h0 | ⟨s, h0⟩
    · rw [h0] at h
      exact List.cons_ne_nil c (t₁ ++ r₁) h
    · rw [h0] at h
      have : c = '<' := (List.cons.injEq _ _ _ _ ▸ h).1
      exact h₁ c (List.mem_cons_self c t₁) this
  | c₁ :: t₁, c₂ :: t₂, r₁, r₂, h₁, h₂, hr₁, hr₂, h => by
    have hc : c₁ = c₂ := (List.cons.injEq _ _ _ _ ▸ h).1
    have ht : t₁ ++ r₁ = t₂ ++ r₂ := (List.cons.injEq _ _ _ _ ▸ h).2
    obtain ⟨he, hr⟩ := noLt_framing t₁ t₂ r₁ r₂
      (fun c hc => h₁ c (List.mem_cons_of_mem c₁ hc))
      (fun c hc => h₂ c (List.mem_cons_of_mem c₂ hc)) hr₁ hr₂ ht
    exact ⟨by rw [hc, he], hr⟩

theorem fragD_head (e : Elem) : ∃ l, fragD e = '<' :: l := by
  cases e with
  | mk t a x cs tl =>
    refine ⟨(t.data ++ ((attribsString a).data
        ++ (serializeRest t x cs tl).data)).filter (fun c => !pySpaceB c), ?_⟩
    show ("<" ++ t ++ attribsString a ++ serializeRest t x cs tl).data.filter
        (fun c => !pySpaceB c) = _
    simp only [data_append, List.append_assoc, List.cons_append, List.nil_append,
      List.filter_cons, List.filter_append,
      (by decide : (!pySpaceB ('<' : Char)) = true), if_true,
      (by decide : ("<" : String).data = ['<'])]

theorem frag_framing {e₁ e₂ : Elem} (h₁ : wfElem e₁ = true) (h₂ : wfElem e₂ = true)
    {r₁ r₂ : List Char} (hs₁ : startsLtOrNil r₁) (hs₂ : startsLtOrNil r₂)
    (h : fragD e₁ ++ r₁ = fragD e₂ ++ r₂) : fragD e₁ = fragD e₂ ∧ r₁ = r₂ := by
  have k₁ : scanM 0 .text (fragD e₁ ++ r₁)
      = some ((escapeCdataL e₁.tail.data).filter (fun c => !pySpaceB c) ++ r₁) :=
    scan_frag_top e₁ h₁ r₁
  have k₂ : scanM 0 .text (fragD e₂ ++ r₂)
      = some ((escapeCdataL e₂.tail.data).filter (fun c => !pySpaceB c) ++ r₂) :=
    scan_frag_top e₂ h₂ r₂
  rw [h, k₂] at k₁
  have htails := Option.some.inj k₁
  obtain ⟨_, hr⟩ := noLt_framing _ _ _ _
    (fun c hc => escapeCdataL_no_lt _ c (mem_of_mem_strip hc))
    (fun c hc => escapeCdataL_no_lt _ c (mem_of_mem_strip hc)) hs₂ hs₁ htails
  refine ⟨?_, hr.symm⟩
  rw [hr] at h
  exact List.append_cancel_right h

theorem serializeList_strip_cons (e : Elem) (L : List Elem) :
    (serializeList (e :: L)).data.filter (fun c => !pySpaceB c)
      = fragD e ++ (serializeList L).data.filter (fun c => !pySpaceB c) := by
  show (serializeElem e ++ serializeList L).data.filter (fun c => !pySpaceB c) = _
  rw [data_append, List.filter_append]
  rfl

theorem serializeList_strip_startsLt (L : List Elem) :
    startsLtOrNil ((serializeList L).data.filter (fun c => !pySpaceB c)) := by
  cases L with
  | nil => exact Or.inl rfl
  | cons e L₂ =>
    right
    obtain ⟨l, hl⟩ := fragD_head e
    refine ⟨l ++ (serializeList L₂).data.filter (fun c => !pySpaceB c), ?_⟩
    rw [serializeList_strip_cons, hl, List.cons_append]

theorem serializeList_inj : ∀ (L₁ L₂ : List Elem), wfList L₁ = true → wfList L₂ = true →
    (serializeList L₁).data.filter (fun c => !pySpaceB c)
      = (serializeList L₂).data.filter (fun c => !pySpaceB c) →
    L₁.map fragD = L₂.map fragD
  | [], [], _, _, _ => rfl
  | [], e :: L₂, _, _, h => by
    exfalso
    obtain ⟨l, hl⟩ := fragD_head e
    rw [serializeList_strip_cons, hl, List.cons_append] at h
    exact List.cons_ne_nil '<' _ h.symm
  | e :: L₁, [], _, _, h => by
    exfalso
    obtain ⟨l, hl⟩ := fragD_head e
    rw [serializeList_strip_cons, hl, List.cons_append] at h
    exact List.cons_ne_nil '<' _ h
  | e₁ :: L₁, e₂ :: L₂, hw₁, hw₂, h => by
    have h₁ : (wfElem e₁ && wfList L₁) = true := hw₁
    have h₂ : (wfElem e₂ && wfList L₂) = true := hw₂
    simp only [Bool.and_eq_true] at h₁ h₂
    rw [serializeList_strip_cons, serializeList_strip_cons] at h
    obtain ⟨hf, hr⟩ := frag_framing h₁.1 h₂.1
      (serializeList_strip_startsLt L₁) (serializeList_strip_startsLt L₂) h
    rw [List.map_cons, List.map_cons, hf,
      serializeList_inj L₁ L₂ h₁.2 h₂.2 hr]

theorem cons_perm_same_tail {α : Type} [DecidableEq α] {a b : α} {R : List α}
    (h : (a :: R).Perm (b :: R)) : a = b := by
  by_contra hne
  have hc := h.count_eq a
  rw [List.count_cons_self, List.count_cons_of_ne hne] at hc
  omega

/-! ### Well-formedness is preserved by normalization and value changes -/

theorem all_eq_of_perm {α : Type} {l₁ l₂ : List α} (h : l₁.Perm l₂) (p : α → Bool) :
    l₁.all p = l₂.all p := by
  rw [Bool.eq_iff_iff]
  simp only [List.all_eq_true]
  constructor
  · intro ha x hx
    exact ha x (h.mem_iff.mpr hx)
  · intro ha x hx
    exact ha x (h.mem_iff.mp hx)

theorem wfList_eq_all : ∀ l : List Elem, wfList l = l.all wfElem
  | [] => rfl
  | c :: cs => by rw [wfList, wfList_eq_all cs, List.all_cons]

mutual

theorem wf_setSortedRec : ∀ e : Elem, wfElem (setSortedRec e) = wfElem e
  | .mk t a x cs tl => by
    rw [setSortedRec_mk]
    show (wfName t && a.all (fun p => wfName p.1)
        && wfList (pySorted (cs.map setSortedRec)))
      = (wfName t && a.all (fun p => wfName p.1) && wfList cs)
    rw [wfList_eq_all, all_eq_of_perm (pySorted_perm (cs.map setSortedRec)) wfElem,
      wf_map_setSorted cs, ← wfList_eq_all]

theorem wf_map_setSorted : ∀ cs : List Elem, (cs.map setSortedRec).all wfElem = cs.all wfElem
  | [] => rfl
  | c :: cs => by
    rw [List.map_cons, List.all_cons, List.all_cons, wf_setSortedRec c,
      wf_map_setSorted cs]

end

theorem wfList_pySorted_map {cs : List Elem} (h : wfList cs = true) :
    wfList (pySorted (cs.map setSortedRec)) = true := by
  rw [wfList_eq_all, all_eq_of_perm (pySorted_perm (cs.map setSortedRec)) wfElem,
    wf_map_setSorted cs, ← wfList_eq_all]
  exact h

/-- Changing one attribute value anywhere does not affect
well-formedness, which looks only at tags and attribute names. -/
theorem attrDiff_wf {k v₁ v₂ : String} {d₁ d₂ : Elem}
    (h : AttrDiff k v₁ v₂ d₁ d₂) : wfElem d₁ = wfElem d₂ := by
  induction h with
  | here t as₁ as₂ x cs tl =>
    show (wfName t && (as₁ ++ (k, v₁) :: as₂).all (fun p => wfName p.1) && wfList cs)
      = (wfName t && (as₁ ++ (k, v₂) :: as₂).all (fun p => wfName p.1) && wfList cs)
    rw [List.all_append, List.all_append, List.all_cons, List.all_cons]
  | child t a x cs₁ cs₂ tl hsub ih =>
    show (wfName t && a.all (fun p => wfName p.1) && wfList (cs₁ ++ _ :: cs₂))
      = (wfName t && a.all (fun p => wfName p.1) && wfList (cs₁ ++ _ :: cs₂))
    rw [wfList_eq_all, wfList_eq_all, List.all_append, List.all_append,
      List.all_cons, List.all_cons, ih]

theorem attribsString_split (as₁ as₂ : List (String × String)) (k : String) :
    ∃ P Q : List Char, ∀ w : String,
      (attribsString (as₁ ++ (k, w) :: as₂)).data = P ++ (escapeAttribL w.data ++ Q) := by
  induction as₁ with
  | nil =>
    refine ⟨(" " ++ k ++ "=\"").data, ("\"" ++ attribsString as₂).data, ?_⟩
    intro w
    show (" " ++ k ++ "=\"" ++ escapeAttrib w ++ "\"" ++ attribsString as₂).data = _
    simp [data_append, escapeAttrib, data_mk, List.append_assoc]
  | cons p rest ih =>
    obtain ⟨P, Q, hPQ⟩ := ih
    refine ⟨(" " ++ p.1 ++ "=\"" ++ escapeAttrib p.2 ++ "\"").data ++ P, Q, ?_⟩
    intro w
    show (" " ++ p.1 ++ "=\"" ++ escapeAttrib p.2 ++ "\""
        ++ attribsString (rest ++ (k, w) :: as₂)).data = _
    rw [data_append, hPQ w]
    simp [data_append, List.append_assoc]

/-- The base case: the element carrying the changed attribute serializes
to fragments that differ, since the value sits in a fixed position of
otherwise identical markup. -/
theorem attr_here_frag_ne (t k v₁ v₂ x tl : String)
    (as₁ as₂ : List (String × String)) (cs : List Elem)
    (hne : stripWs v₁ ≠ stripWs v₂) :
    stripWs (serializeElem (setSortedRec (.mk t (as₁ ++ (k, v₁) :: as₂) x cs tl)))
      ≠ stripWs (serializeElem (setSortedRec (.mk t (as₁ ++ (k, v₂) :: as₂) x cs tl))) := by
  obtain ⟨P, Q, hPQ⟩ := attribsString_split as₁ as₂ k
  have hdata : ∀ v : String,
      (stripWs (serializeElem (setSortedRec (.mk t (as₁ ++ (k, v) :: as₂) x cs tl)))).data
        = (("<" ++ t).data ++ P).filter (fun d => !pySpaceB d)
          ++ ((escapeAttribL v.data).filter (fun d => !pySpaceB d)
            ++ (Q ++ (serializeRest t x (pySorted (cs.map setSortedRec)) tl).data).filter
                (fun d => !pySpaceB d)) := by
    intro v
    rw [setSortedRec_mk, serializeElem_mk]
    show (("<" ++ t ++ attribsString (as₁ ++ (k, v) :: as₂)
        ++ serializeRest t x (pySorted (cs.map setSortedRec)) tl).data).filter
          (fun d => !pySpaceB d) = _
    rw [data_append, data_append, hPQ v]
    simp [List.filter_append, List.append_assoc, List.filter_cons,
      (by decide : (!pySpaceB ('<' : Char)) = true)]
  intro heq
  apply hne
  have h₀ := congrArg String.data heq
  rw [hdata v₁, hdata v₂] at h₀
  have h₁ := List.append_cancel_left h₀
  have h₂ := List.append_cancel_right h₁
  rw [filter_escapeAttribL, filter_escapeAttribL] at h₂
  have h₃ := escapeAttribL_inj _ _ h₂
  have h₄ := congrArg (List.filter (fun d => !pySpaceB d)) h₃
  rw [filter_keep_strip, filter_keep_strip] at h₄
  show (⟨v₁.data.filter (fun c => !pySpaceB c)⟩ : String)
      = ⟨v₂.data.filter (fun c => !pySpaceB c)⟩
  rw [h₄]

/-- Changing one attribute value (anywhere in the document, to a value
that is still different after whitespace removal) changes the
whitespace-stripped serialization of the normalized tree. -/
theorem attrDiff_frag_ne {k v₁ v₂ : String} (hne : stripWs v₁ ≠ stripWs v₂) :
    ∀ {d₁ d₂ : Elem}, AttrDiff k v₁ v₂ d₁ d₂ → wfElem d₁ = true →
    stripWs (serializeElem (setSortedRec d₁))
      ≠ stripWs (serializeElem (setSortedRec d₂)) := by
  intro d₁ d₂ hdiff
  induction hdiff with
  | here t as₁ as₂ x cs tl =>
    intro _
    exact attr_here_frag_ne t k v₁ v₂ x tl as₁ as₂ cs hne
  | @child t a x cs₁ cs₂ tl e₁ e₂ hsub ih =>
    intro hw heq
    have h0 : (wfName t && a.all (fun p => wfName p.1)
        && wfList (cs₁ ++ e₁ :: cs₂)) = true := hw
    simp only [Bool.and_eq_true] at h0
    have hcs : wfList (cs₁ ++ e₁ :: cs₂) = true := h0.2
    have hcsAll : ((cs₁ ++ e₁ :: cs₂).all wfElem) = true := by
      rw [← wfList_eq_all]
      exact hcs
    simp only [List.all_append, List.all_cons, Bool.and_eq_true] at hcsAll
    have hwe₁ : wfElem e₁ = true := hcsAll.2.1
    have hwe₂ : wfElem e₂ = true := by
      rw [← attrDiff_wf hsub]
      exact hwe₁
    have hfr := ih hwe₁
    have hcs₂ : wfList (cs₁ ++ e₂ :: cs₂) = true := by
      rw [wfList_eq_all]
      simp only [List.all_append, List.all_cons, Bool.and_eq_true]
      exact ⟨hcsAll.1, hwe₂, hcsAll.2.2⟩
    have hdata : ∀ (L : List Elem), L ≠ [] →
        (stripWs (serializeElem (Elem.mk t a x L tl))).data
          = ("<" ++ t ++ attribsString a ++ ">").data.filter (fun c => !pySpaceB c)
            ++ ((escapeCdataL x.data).filter (fun c => !pySpaceB c)
              ++ ((serializeList L).data.filter (fun c => !pySpaceB c)
                ++ (("</" ++ t ++ ">").data.filter (fun c => !pySpaceB c)
                  ++ (escapeCdataL tl.data).filter (fun c => !pySpaceB c)))) := by
      intro L hL
      rw [serializeElem_mk]
      unfold serializeRest
      have hcond : ((x == "") && L.isEmpty) = false := by
        cases L with
        | nil => exact absurd rfl hL
        | cons y ys => simp [List.isEmpty]
      rw [if_neg (by simp [hcond])]
      simp [stripWs, data_mk, data_append, List.filter_append, List.append_assoc,
        escapeCdata, List.filter_cons,
        (by decide : (!pySpaceB ('<' : Char)) = true),
        (by decide : (!pySpaceB ('>' : Char)) = true),
        (by decide : (!pySpaceB ('/' : Char)) = true)]
    have hlen : ∀ (e : Elem), pySorted ((cs₁ ++ e :: cs₂).map setSortedRec) ≠ [] := by
      intro e h
      have hl := (pySorted_perm ((cs₁ ++ e :: cs₂).map setSortedRec)).length_eq
      rw [h] at hl
      simp only [List.length_nil, List.length_map, List.length_append,
        List.length_cons] at hl
      omega
    have h₀ := congrArg String.data heq
    rw [setSortedRec_mk, setSortedRec_mk, hdata _ (hlen e₁), hdata _ (hlen e₂)] at h₀
    have h₁ := List.append_cancel_left h₀
    have h₂ := List.append_cancel_left h₁
    have h₃ := List.append_cancel_right h₂
    have hwL₁ : wfList (pySorted ((cs₁ ++ e₁ :: cs₂).map setSortedRec)) = true :=
      wfList_pySorted_map hcs
    have hwL₂ : wfList (pySorted ((cs₁ ++ e₂ :: cs₂).map setSortedRec)) = true :=
      wfList_pySorted_map hcs₂
    have hmap := serializeList_inj _ _ hwL₁ hwL₂ h₃
    have hmid : ∀ (e : Elem),
        ((cs₁ ++ e :: cs₂).map setSortedRec).map fragD
          = (cs₁.map setSortedRec).map fragD
            ++ fragD (setSortedRec e) :: (cs₂.map setSortedRec).map fragD := by
      intro e
      simp [List.map_append, List.map_cons]
    have hq₁ : ((pySorted ((cs₁ ++ e₁ :: cs₂).map setSortedRec)).map fragD).Perm
        (fragD (setSortedRec e₁)
          :: ((cs₁.map setSortedRec).map fragD ++ (cs₂.map setSortedRec).map fragD)) := by
      have hp := (pySorted_perm ((cs₁ ++ e₁ :: cs₂).map setSortedRec)).map fragD
      rw [hmid e₁] at hp
      exact hp.trans List.perm_middle
    have hq₂ : ((pySorted ((cs₁ ++ e₁ :: cs₂).map setSortedRec)).map fragD).Perm
        (fragD (setSortedRec e₂)
          :: ((cs₁.map setSortedRec).map fragD ++ (cs₂.map setSortedRec).map fragD)) := by
      rw [hmap]
      have hp := (pySorted_perm ((cs₁ ++ e₂ :: cs₂).map setSortedRec)).map fragD
      rw [hmid e₂] at hp
      exact hp.trans List.perm_middle
    have hchain := hq₁.symm.trans hq₂
    exact hfr (string_data_eq (cons_perm_same_tail hchain))

/-- C6 (amended): two well-formed XML documents identical except that
one element — at any depth — carries a different value for one of its
attributes have different canonical forms, provided the two values are
still different after removing all whitespace characters.
Well-formedness here is that of XML names: every tag and attribute name
is nonempty and free of markup and whitespace characters.  (Values
differing only in whitespace — e.g. `"a b"` vs `"ab"` — produce equal
canonical forms, because serialization keeps spaces in attribute values
unescaped and the canonicalization then strips every whitespace
character; see the counterexample.) -/
theorem attr_value_distinguishes (k v₁ v₂ : String) {d₁ d₂ : Elem}
    (hdiff : AttrDiff k v₁ v₂ d₁ d₂) (hwf : wfElem d₁ = true)
    (hne : stripWs v₁ ≠ stripWs v₂) :
    canonicalString d₁ none ≠ canonicalString d₂ none :=
  attrDiff_frag_ne hne hdiff hwf

/-- Witness for C6 (amended): changing `x="1"` to `x="2"` on a nested
(non-root) element with a sibling gives different canonical forms. -/
theorem attr_value_distinguishes_witness :
    wfElem (Elem.mk "r" [] ""
      [Elem.mk "b" [] "" [] "", Elem.mk "a" [("x", "1")] "" [] ""] "") = true ∧
    stripWs "1" ≠ stripWs "2" ∧
    canonicalString (Elem.mk "r" [] ""
        [Elem.mk "b" [] "" [] "", Elem.mk "a" [("x", "1")] "" [] ""] "") none
      ≠ canonicalString (Elem.mk "r" [] ""
          [Elem.mk "b" [] "" [] "", Elem.mk "a" [("x", "2")] "" [] ""] "") none :=
  ⟨by decide, by decide,
   attr_value_distinguishes "x" "1" "2"
     (AttrDiff.child "r" [] "" [Elem.mk "b" [] "" [] ""] [] ""
       (AttrDiff.here "a" [] [] "" [] ""))
     (by decide) (by decide)⟩

/-- Counterexample to C6 as stated: `<r x="a b"/>` and `<r x="ab"/>`
carry different values for the attribute `x` but have equal canonical
forms, because whitespace stripping erases the space inside the
serialized attribute value. -/
theorem attr_value_ws_counterexample :
    ("a b" : String) ≠ "ab" ∧
    canonicalString (.mk "r" [("x", "a b")] "" [] "") none
      = canonicalString (.mk "r" [("x", "ab")] "" [] "") none := by
  constructor
  · decide
  · decide

end Genologics
